import Mathlib

/-!
Verification development for the CortexTheseus block-chain synchronization
engine and its transaction metadata types.

The repository ships the downloader's test harness
(`eth/downloader/downloader_test.go`) and the metadata types
(`types.Transaction`, `types.FileMeta`), but not the downloader/queue
implementation itself.  Following the spec, the BlockQueue and Downloader
operations below are modelled from the spec's operational description
(sections 4.2, 4.3, 5 and 8); the test harness and the metadata types are
translated directly from the Go source.

Machine integers: Go `int`/`uint64` values that stay non-negative are
modelled as `Nat`; byte arrays (`common.Hash`, `common.Address`, payloads)
are modelled as lists of byte values.
-/

/-! ## Basic data: hashes, addresses, blocks -/

/-- A `common.Hash` (32 bytes in Go) modelled as a list of byte values. -/
abbrev EthHash := List Nat

/-- A `common.Address` (20 bytes in Go) modelled as a list of byte values. -/
abbrev EthAddress := List Nat

/-- The all-zero `common.Address`. -/
def zeroAddress : EthAddress := List.replicate 20 0

/-- A `types.Block` as used by the downloader tests: header number, own header
hash and the stated parent header hash (`HeaderHash`, `ParentHeaderHash`). -/
structure EthBlock where
  number : Nat
  headerHash : EthHash
  parentHeaderHash : EthHash
deriving DecidableEq

/-! ## Downloader errors

Modelled from the spec's error taxonomy (section 7) and the error values the
test file references (`ErrInvalidChain`, `errPeersUnavailable`,
`errNoSyncActive`). -/

/-- Error taxonomy of the downloader. -/
inductive DLErr where
  | invalidChain
  | peersUnavailable
  | noActiveSync
  | cancelled
deriving DecidableEq

/-! ## BlockQueue

Modelled from the spec: the BlockQueue (`queue.go` is absent from the
sources; only its tests are present).  The spec's three pools
(`hashPool`, `pendingPool`, `blockCache`) are represented as a single
ordered list of per-hash tagged states, as the spec's design notes
describe ("a tagged state per hash held in one keyed mapping"); the pools
are the projections of this list.  The list order is the assembly order
(oldest first), which `insertHashes` preserves. -/

/-- State of one hash inside the queue: still to fetch (`hashPool`),
requested with a timestamp (`pendingPool`), or fetched (`blockCache`). -/
inductive HState where
  | unseen
  | pending (since : Nat)
  | cached (b : EthBlock)
deriving DecidableEq

/-- Whether a hash is still unfetched (in `hashPool`). -/
def HState.isUnseen : HState → Bool
  | .unseen => true
  | _ => false

/-- Whether a hash has an outstanding request (in `pendingPool`). -/
def HState.isPend : HState → Bool
  | .pending _ => true
  | _ => false

/-- Whether a hash has been fetched (in `blockCache`). -/
def HState.isCached : HState → Bool
  | .cached _ => true
  | _ => false

/-- The fetched block, if any. -/
def HState.toBlock : HState → Option EthBlock
  | .cached b => some b
  | _ => none

/-- The BlockQueue.  `entries` holds the per-hash states in assembly order;
`limit` is `blockCacheLimit`; `ancestor` is the designated local ancestor
(fork point) used by chain validation; `prev` is the hash of the block most
recently handed out by `takeAssembled` (initially the ancestor); `past`
records hashes already drained, so that a hash never re-enters the pools
after being cached and taken. -/
structure BlockQueue where
  entries : List (EthHash × HState)
  limit : Nat
  ancestor : EthHash
  prev : EthHash
  past : List EthHash
deriving DecidableEq

/-- Number of hashes in the `hashPool` projection. -/
def BlockQueue.hashPoolCount (q : BlockQueue) : Nat :=
  q.entries.countP (fun e => e.2.isUnseen)

/-- Number of hashes in the `pendingPool` projection. -/
def BlockQueue.pendingCount (q : BlockQueue) : Nat :=
  q.entries.countP (fun e => e.2.isPend)

/-- Number of blocks in the `blockCache` projection. -/
def BlockQueue.cacheCount (q : BlockQueue) : Nat :=
  q.entries.countP (fun e => e.2.isCached)

/-- Hashes currently in `hashPool`. -/
def BlockQueue.hashPool (q : BlockQueue) : List EthHash :=
  (q.entries.filter (fun e => e.2.isUnseen)).map (fun e => e.1)

/-- Hashes currently in `pendingPool`. -/
def BlockQueue.pendingPool (q : BlockQueue) : List EthHash :=
  (q.entries.filter (fun e => e.2.isPend)).map (fun e => e.1)

/-- Hashes currently in `blockCache`. -/
def BlockQueue.blockCache (q : BlockQueue) : List EthHash :=
  (q.entries.filter (fun e => e.2.isCached)).map (fun e => e.1)

/-- Outstanding work: `len(hashPool) + len(pendingPool)`. -/
def BlockQueue.outstanding (q : BlockQueue) : Nat :=
  q.hashPoolCount + q.pendingCount

/-- Modelled from the spec: `size()` returns
`(len(hashPool)+len(pendingPool), len(blockCache))`. -/
def BlockQueue.size (q : BlockQueue) : Nat × Nat :=
  (q.outstanding, q.cacheCount)

/-- A fresh queue for a new round (ancestor designated, pools empty). -/
def newQueue (limit : Nat) (ancestor : EthHash) : BlockQueue :=
  { entries := [], limit := limit, ancestor := ancestor,
    prev := ancestor, past := [] }

/-- Whether a hash is already known to the queue (any pool, or drained). -/
def BlockQueue.knows (q : BlockQueue) (h : EthHash) : Bool :=
  (q.entries.map (fun e => e.1)).contains h || q.past.contains h

/-- Modelled from the spec: `insertHashes` appends hashes not already known
(dedup by set membership across the pools), preserving the chain's
oldest-to-newest order for later assembly; returns the count inserted. -/
def BlockQueue.insertHashes (q : BlockQueue) (hs : List EthHash) :
    BlockQueue × Nat :=
  match hs with
  | [] => (q, 0)
  | h :: rest =>
    if q.knows h then q.insertHashes rest
    else
      let r := { q with entries := q.entries ++ [(h, HState.unseen)] }.insertHashes rest
      (r.1, r.2 + 1)

/-- Helper for `requestBlocks`: mark up to `n` of the oldest `hashPool`
entries as pending (stamped `now`), returning the new entry list and the
marked hashes in order. -/
def markPending (now : Nat) : Nat → List (EthHash × HState) →
    List (EthHash × HState) × List EthHash
  | _, [] => ([], [])
  | 0, es => (es, [])
  | Nat.succ n, (h, HState.unseen) :: es =>
    let r := markPending now n es
    ((h, HState.pending now) :: r.1, h :: r.2)
  | Nat.succ n, e :: es =>
    let r := markPending now (Nat.succ n) es
    (e :: r.1, r.2)

/-- Modelled from the spec: `requestBlocks` pops up to `maxBatch` hashes
from `hashPool` (oldest first), not exceeding the remaining `blockCache`
capacity, and moves them into `pendingPool` stamped with the current time.
In-flight requests reserve their cache slot (otherwise the cache ceiling
invariant of section 3 could not hold), so the remaining capacity is the
limit minus cached plus pending entries.  Returns empty when `hashPool` is
empty or the cache is full (the backpressure gate). -/
def BlockQueue.requestBlocks (q : BlockQueue) (now maxBatch : Nat) :
    BlockQueue × List EthHash :=
  let capacity := q.limit - (q.cacheCount + q.pendingCount)
  let r := markPending now (min maxBatch capacity) q.entries
  ({ q with entries := r.1 }, r.2)

/-- Helper for `deliver`: resolve one delivered block against the first
pending entry bearing its hash; `none` when no such entry exists (the
block was never requested, or already answered). -/
def deliverOne (b : EthBlock) : List (EthHash × HState) →
    Option (List (EthHash × HState))
  | [] => none
  | (h, HState.pending t) :: es =>
    if h = b.headerHash then some ((h, HState.cached b) :: es)
    else
      match deliverOne b es with
      | some es2 => some ((h, HState.pending t) :: es2)
      | none => none
  | e :: es =>
    match deliverOne b es with
    | some es2 => some (e :: es2)
    | none => none

/-- Helper for `deliver`: resolve a batch of blocks in order, counting the
resolved ones and dropping the rest silently. -/
def deliverAll : List EthBlock → List (EthHash × HState) →
    List (EthHash × HState) × Nat
  | [], es => (es, 0)
  | b :: bs, es =>
    match deliverOne b es with
    | some es2 =>
      let r := deliverAll bs es2
      (r.1, r.2 + 1)
    | none => deliverAll bs es

/-- Modelled from the spec: `deliver` moves each delivered block whose hash
is in `pendingPool` into `blockCache`; blocks whose hash is unexpected are
dropped silently.  Returns the number of hashes resolved.  (The peer
identity does not influence matching: the spec's `pendingPool` is keyed by
hash.) -/
def BlockQueue.deliver (q : BlockQueue) (peer : String)
    (bs : List EthBlock) : BlockQueue × Nat :=
  let r := deliverAll bs q.entries
  ({ q with entries := r.1 }, r.2)

/-- Helper for `expire`: move pending entries older than `ttl` back to
`hashPool`, counting them. -/
def expireAll (ttl now : Nat) : List (EthHash × HState) →
    List (EthHash × HState) × Nat
  | [] => ([], 0)
  | (h, HState.pending t) :: es =>
    let r := expireAll ttl now es
    if ttl < now - t then ((h, HState.unseen) :: r.1, r.2 + 1)
    else ((h, HState.pending t) :: r.1, r.2)
  | e :: es =>
    let r := expireAll ttl now es
    (e :: r.1, r.2)

/-- Modelled from the spec: `expire` scans `pendingPool` and moves entries
older than `ttl` back into `hashPool` for re-request. -/
def BlockQueue.expire (q : BlockQueue) (ttl now : Nat) : BlockQueue × Nat :=
  let r := expireAll ttl now q.entries
  ({ q with entries := r.1 }, r.2)

/-- Chain-linkage validation (spec, glossary and section 4.2): each drained
block's stated parent must be the designated local ancestor or the
immediately preceding block in the drained sequence.  Returns the hash of
the last accepted block (the new `prev`), or the invalid-chain error. -/
def validateChain (ancestor : EthHash) : EthHash → List EthBlock →
    Except DLErr EthHash
  | prev, [] => Except.ok prev
  | prev, b :: bs =>
    if b.parentHeaderHash = ancestor ∨ b.parentHeaderHash = prev then
      validateChain ancestor b.headerHash bs
    else Except.error DLErr.invalidChain

/-- Modelled from the spec: `takeAssembled` drains the contiguous cached
front of the queue in assembly order, validating parent-hash linkage
against the fork-point ancestor and among the drained blocks; any linkage
violation fails the whole drain with the invalid-chain error.  Repeatable:
later calls return only newly cached blocks. -/
def BlockQueue.takeAssembled (q : BlockQueue) :
    BlockQueue × Except DLErr (List EthBlock) :=
  let pre := q.entries.takeWhile (fun e => e.2.isCached)
  let blocks := pre.filterMap (fun e => e.2.toBlock)
  match validateChain q.ancestor q.prev blocks with
  | Except.error e => (q, Except.error e)
  | Except.ok p2 =>
    ({ q with entries := q.entries.drop pre.length,
              past := q.past ++ pre.map (fun e => e.1),
              prev := p2 },
     Except.ok blocks)

/-- Modelled from the spec: `reset` clears all three pools (used on
cancellation). -/
def BlockQueue.reset (q : BlockQueue) : BlockQueue :=
  { q with entries := [], past := [], prev := q.ancestor }

/-! ## Queue operations as observable events (for the pool invariants) -/

/-- One externally triggered queue operation of a sync round. -/
inductive QOp where
  | insert (hs : List EthHash)
  | request (now maxBatch : Nat)
  | deliver (peer : String) (bs : List EthBlock)
  | expire (ttl now : Nat)
  | take

/-- Apply one operation, discarding its output. -/
def applyOp (q : BlockQueue) : QOp → BlockQueue
  | .insert hs => (q.insertHashes hs).1
  | .request now maxBatch => (q.requestBlocks now maxBatch).1
  | .deliver peer bs => (q.deliver peer bs).1
  | .expire ttl now => (q.expire ttl now).1
  | .take => q.takeAssembled.1

/-- Apply a sequence of operations. -/
def applyOps (q : BlockQueue) : List QOp → BlockQueue
  | [] => q
  | op :: ops => applyOps (applyOp q op) ops

/-- How many of the three pools currently hold the hash `h`. -/
def BlockQueue.poolsHolding (q : BlockQueue) (h : EthHash) : Nat :=
  (if h ∈ q.hashPool then 1 else 0) +
  (if h ∈ q.pendingPool then 1 else 0) +
  (if h ∈ q.blockCache then 1 else 0)

/-! ## Downloader

Modelled from the spec (section 4.3): the orchestrator state machine.
Only the parts the observable contracts need are modelled: the status
guard on deliveries, cancellation, the bounded hash-walk, and the
block-fetch round. -/

/-- Downloader status (spec: idle / fetching-hashes / fetching-blocks /
done / cancelled; terminal states reset to idle). -/
inductive SyncStatus where
  | idle
  | fetchingHashes
  | fetchingBlocks
deriving DecidableEq

/-- The downloader: its status and its per-round BlockQueue. -/
structure Downloader where
  status : SyncStatus
  queue : BlockQueue
deriving DecidableEq

/-- Modelled from the spec: `DeliverHashes` fails with the no-active-sync
error while idle (no side effect on any queue state); otherwise it routes
the hashes into the queue. -/
def Downloader.deliverHashes (d : Downloader) (peer : String)
    (hs : List EthHash) : Downloader × Except DLErr Nat :=
  if d.status = SyncStatus.idle then (d, Except.error DLErr.noActiveSync)
  else
    let r := d.queue.insertHashes hs
    ({ d with queue := r.1 }, Except.ok r.2)

/-- Modelled from the spec: `DeliverBlocks` fails with the no-active-sync
error while idle (no side effect on any queue state); otherwise it routes
the blocks into the queue. -/
def Downloader.deliverBlocks (d : Downloader) (peer : String)
    (bs : List EthBlock) : Downloader × Except DLErr Nat :=
  if d.status = SyncStatus.idle then (d, Except.error DLErr.noActiveSync)
  else
    let r := d.queue.deliver peer bs
    ({ d with queue := r.1 }, Except.ok r.2)

/-- Modelled from the spec: `Cancel()` succeeds exactly when a round is
active; it resets the BlockQueue and returns to idle (the cancelled
terminal state immediately resets to idle). -/
def Downloader.cancel (d : Downloader) : Downloader × Bool :=
  if d.status = SyncStatus.idle then (d, false)
  else ({ status := SyncStatus.idle, queue := d.queue.reset }, true)

/-! ## The hash-walk phase

Modelled from the spec: `Synchronise` first collects the peer's hash chain
walking backward from the head.  The walk accepts at most a bounded number
of rounds; a round whose batch reaches a locally known hash finds the fork
point; an empty batch means no more ancestors; exceeding the bound fails
the sync (this is the repeating-hash short circuit). -/

/-- The bounded hash-walk.  `getHashes r` is the peer's answer to the
`r`-th request; `hasBlock` is the chain adapter's known-hash test.
Returns the accepted hashes on fork-point success, the invalid-chain
error when the round bound is exhausted without reaching a known
ancestor, and the peers-unavailable error when the peer offers no more
ancestors. -/
def fetchHashesLoop (getHashes : Nat → List EthHash)
    (hasBlock : EthHash → Bool) :
    Nat → Nat → List EthHash → Except DLErr (List EthHash)
  | 0, _, _ => Except.error DLErr.invalidChain
  | Nat.succ bound, round, acc =>
    let batch := getHashes round
    if batch.isEmpty then Except.error DLErr.peersUnavailable
    else if batch.any hasBlock then Except.ok (acc ++ batch.takeWhile (fun h => !hasBlock h))
    else fetchHashesLoop getHashes hasBlock bound (round + 1) (acc ++ batch)

/-! ## The block-fetch round

Modelled from the spec: after the fork point is found the downloader
repeatedly asks the queue for a batch (`requestBlocks`), dispatches it and
feeds the answers back (`deliver`), runs the periodic TTL sweep
(`expire`), and lets the consumer drain completed blocks
(`takeAssembled`) concurrently; a drain is forced when the backpressure
gate closes the request path.  An iteration that resolves and drains
nothing burns one of the bounded attempts; exhausting the attempts fails
the round with the peers-unavailable error (no responsive peer supplies
the missing bodies).  The `schedule` lists at which iterations the
concurrent consumer also drains; time advances one tick per iteration and
undelivered requests expire after `ttl` ticks. -/

/-- Aggregate state of a running block-fetch round: the queue, the blocks
drained so far (in order) and the consecutive no-progress attempts. -/
structure RoundState where
  q : BlockQueue
  acc : List EthBlock
  attempts : Nat

/-- The body of one round iteration after the TTL sweep: request, deliver,
optional (or forced) drain, attempt bookkeeping. -/
def roundStepCore (blockFor : EthHash → Option EthBlock)
    (maxBatch maxAtt : Nat) (takeFlag : Bool) (now : Nat)
    (q1 : BlockQueue) (acc : List EthBlock) (attempts : Nat) :
    Except DLErr RoundState :=
  let rq := q1.requestBlocks now maxBatch
  let dl := rq.1.deliver "" (rq.2.filterMap blockFor)
  let resolved := dl.2
  if takeFlag || rq.2.isEmpty then
    match dl.1.takeAssembled with
    | (_, Except.error e) => Except.error e
    | (q4, Except.ok taken) =>
      if resolved + taken.length = 0 then
        if maxAtt ≤ attempts + 1 then Except.error DLErr.peersUnavailable
        else Except.ok ⟨q4, acc ++ taken, attempts + 1⟩
      else Except.ok ⟨q4, acc ++ taken, 0⟩
  else
    if resolved = 0 then
      if maxAtt ≤ attempts + 1 then Except.error DLErr.peersUnavailable
      else Except.ok ⟨dl.1, acc, attempts + 1⟩
    else Except.ok ⟨dl.1, acc, 0⟩

/-- One iteration of the block-fetch round: TTL sweep, request, deliver,
optional (or forced) drain, attempt bookkeeping. -/
def roundStep (blockFor : EthHash → Option EthBlock)
    (maxBatch ttl maxAtt : Nat) (takeFlag : Bool) (now : Nat)
    (st : RoundState) : Except DLErr RoundState :=
  roundStepCore blockFor maxBatch maxAtt takeFlag now
    (st.q.expire ttl now).1 st.acc st.attempts

/-- The final drain once no hash is outstanding: the round's result. -/
def finishRound (st : RoundState) : Except DLErr (List EthBlock) :=
  match st.q.takeAssembled with
  | (_, Except.error e) => Except.error e
  | (_, Except.ok taken) => Except.ok (st.acc ++ taken)

/-- The block-fetch round loop.  Runs iterations until no hash is
outstanding, then performs the final drain.  `fuel` bounds the executed
iterations (`none` when it runs out, which the theorems exclude by
supplying enough). -/
def syncRoundAux (blockFor : EthHash → Option EthBlock)
    (maxBatch ttl maxAtt : Nat) :
    Nat → List Bool → Nat → RoundState →
    Option (Except DLErr (List EthBlock))
  | 0, _, _, st =>
    if st.q.outstanding = 0 then some (finishRound st) else none
  | Nat.succ f, schedule, now, st =>
    if st.q.outstanding = 0 then some (finishRound st)
    else
      match roundStep blockFor maxBatch ttl maxAtt
          (schedule.headD false) now st with
      | Except.error e => some (Except.error e)
      | Except.ok st2 =>
        syncRoundAux blockFor maxBatch ttl maxAtt f schedule.tail
          (now + 1) st2

/-- A whole block-fetch round over the accepted hashes `σ` (assembly
order, oldest to newest), from a fresh queue rooted at `ancestor`. -/
def syncBlocks (blockFor : EthHash → Option EthBlock)
    (limit maxBatch ttl maxAtt : Nat) (ancestor : EthHash)
    (σ : List EthHash) (schedule : List Bool) (fuel : Nat) :
    Option (Except DLErr (List EthBlock)) :=
  syncRoundAux blockFor maxBatch ttl maxAtt fuel schedule 0
    ⟨((newQueue limit ancestor).insertHashes σ).1, [], 0⟩

/-! ## Valid chains

A valid hash chain for a round: distinct hashes `h₁ … hₙ`, none locally
known, block `i` carrying hash `hᵢ` and parent `hᵢ₋₁` (parent `h₀` being
the local ancestor). -/

/-- The parent of `h` inside the chain `anc :: hs` (delivers `anc` for the
first hash, the predecessor for the rest; `anc` as fallback). -/
def chainParent (anc : EthHash) (hs : List EthHash) (h : EthHash) : EthHash :=
  ((hs.zip (anc :: hs)).lookup h).getD anc

/-- The canonical block carried by a chain hash. -/
def chainBlk (anc : EthHash) (hs : List EthHash) (h : EthHash) : EthBlock :=
  { number := 0, headerHash := h, parentHeaderHash := chainParent anc hs h }

/-- The peer-side block supply of a valid chain: bodies exactly for the
chain's hashes. -/
def chainSupply (anc : EthHash) (hs : List EthHash) :
    EthHash → Option EthBlock :=
  fun h => if hs.contains h then some (chainBlk anc hs h) else none

/-- The expected drain output of a valid chain: its blocks oldest to
newest. -/
def chainBlocks (anc : EthHash) (hs : List EthHash) : List EthBlock :=
  hs.map (chainBlk anc hs)

/-! ## Transaction metadata types

Translated from the Go source (`src/unnamed/part_000`, package `types`). -/

/-- Named payload opcodes. -/
def opCommon : Nat := 0
/-- Opcode of a model-creation payload. -/
def opCreateModel : Nat := 1
/-- Opcode of an input-creation payload. -/
def opCreateInput : Nat := 2
/-- Opcode marker for payloads carrying no usable input. -/
def opNoInput : Nat := 3

/-- A transaction receipt (`types.TxReceipt`). -/
structure TxReceipt where
  contractAddr : Option EthAddress
  txHash : Option EthHash
deriving DecidableEq

/-- A transaction (`types.Transaction`).  Big integers are modelled as
`Int`, the payload as a list of byte values; pointer fields are options. -/
structure Transaction where
  price : Int
  amount : Int
  gasLimit : Nat
  payload : List Nat
  sender : Option EthAddress
  recipient : Option EthAddress
  hash : Option EthHash
  receipt : Option TxReceipt

/-- Translated from `Transaction.Op`: the opcode is read from the first
two payload bytes big-endian, clamped to `opNoInput` when above 3; an
empty payload is `opNoInput`; a one-byte payload falls through to
`opCommon`. -/
def Transaction.Op (t : Transaction) : Nat :=
  match t.payload with
  | b0 :: b1 :: _ =>
    let op := (b0 <<< 8) + b1
    if op > 3 then opNoInput else op
  | [] => opNoInput
  | [_] => opCommon

/-- Translated from `Transaction.Data`: the payload after the two opcode
bytes, empty otherwise. -/
def Transaction.Data (t : Transaction) : List Nat :=
  match t.payload with
  | _ :: _ :: rest => rest
  | _ => []

/-- The record an RLP decode of an input-creation payload produces
(`core/types.InputMeta`, consumed as an opaque decode step). -/
structure InputMeta where
  authorAddress : EthAddress
  uri : String
  rawSize : Nat
  blockNum : Nat

/-- The record an RLP decode of a model-creation payload produces
(`core/types.ModelMeta`, consumed as an opaque decode step). -/
structure ModelMeta where
  authorAddress : EthAddress
  uri : String
  rawSize : Nat
  blockNum : Nat

/-- The zero value of `InputMeta` (Go `var meta metaTypes.InputMeta`). -/
def zeroInputMeta : InputMeta :=
  { authorAddress := zeroAddress, uri := "", rawSize := 0, blockNum := 0 }

/-- The zero value of `ModelMeta`. -/
def zeroModelMeta : ModelMeta :=
  { authorAddress := zeroAddress, uri := "", rawSize := 0, blockNum := 0 }

/-- Translated from `common.Address.SetBytes`: the address takes the given
bytes right-aligned, cropped from the left when longer than 20 bytes. -/
def addressSetBytes (b : List Nat) : EthAddress :=
  List.replicate (20 - b.length) 0 ++ b.drop (b.length - 20)

/-- A parsed file record (`types.FileMeta`). -/
structure FileMeta where
  authorAddr : EthAddress
  uri : String
  rawSize : Nat
  blockNum : Nat
deriving DecidableEq

/-- Translated from `Transaction.Parse`.  The RLP decoding of the payload
is an external collaborator, passed in as the two decode functions.  Note
the order of operations in the source: the author address is copied out
of the zero-valued meta record before `rlp.Decode` runs, so the returned
author address never depends on the decoded content. -/
def Transaction.Parse (decodeInput : List Nat → InputMeta)
    (decodeModel : List Nat → ModelMeta) (t : Transaction) :
    Option FileMeta :=
  if t.Op = opCreateInput then
    let meta0 := zeroInputMeta
    let authorAddress := addressSetBytes meta0.authorAddress
    let meta := decodeInput t.Data
    some { authorAddr := authorAddress, uri := meta.uri,
           rawSize := meta.rawSize, blockNum := meta.blockNum }
  else if t.Op = opCreateModel then
    let meta0 := zeroModelMeta
    let authorAddress := addressSetBytes meta0.authorAddress
    let meta := decodeModel t.Data
    some { authorAddr := authorAddress, uri := meta.uri,
           rawSize := meta.rawSize, blockNum := meta.blockNum }
  else none

/-! ## The downloader test harness

Translated from `src/eth/downloader/downloader_test.go`. -/

/-- The locally known hash (`knownHash`): byte 1 followed by 31 zero
bytes. -/
def knownHash : EthHash := 1 :: List.replicate 31 0

/-- The unknown hash (`unknownHash`): 32 bytes of 9. -/
def unknownHash : EthHash := List.replicate 32 9

/-- Big-endian bytes of a `uint64` (Go `binary.BigEndian.PutUint64`). -/
def uint64BE (n : Nat) : List Nat :=
  [n / 2 ^ 56 % 256, n / 2 ^ 48 % 256, n / 2 ^ 40 % 256, n / 2 ^ 32 % 256,
   n / 2 ^ 24 % 256, n / 2 ^ 16 % 256, n / 2 ^ 8 % 256, n % 256]

/-- Translated from `createHashes`: `amount` hashes whose first eight
bytes spell `i+2` big-endian (rest zero), followed by `knownHash`.  The
`start` argument is unused by the source loop as well. -/
def createHashes (start amount : Nat) : List EthHash :=
  (List.range amount).map (fun i => uint64BE (i + 2) ++ List.replicate 24 0)
    ++ [knownHash]

/-- Translated from `createBlock`. -/
def createBlock (i : Nat) (prevHash hash : EthHash) : EthBlock :=
  { number := i, headerHash := hash, parentHeaderHash := prevHash }

/-- Translated from `createBlocksFromHashes`: every hash maps to a block
whose parent is `knownHash`. -/
def createBlocksFromHashes (hashes : List EthHash) :
    List (EthHash × EthBlock) :=
  (List.range hashes.length).filterMap fun i =>
    match hashes.get? i with
    | some h => some (h, createBlock (hashes.length - i) knownHash h)
    | none => none

/-- Translated from the tester's `hasBlock`: membership of the hash in
the locally constructed chain. -/
def testerHasBlock (chain : List EthHash) (h : EthHash) : Bool :=
  chain.contains h

/-- The forged block of `TestNonExistingParentAttack`: the single non-known
hash of `createHashes 0 1`, its parent overwritten with `unknownHash`. -/
def forgedParentBlock : EthBlock :=
  { number := 2, headerHash := uint64BE 2 ++ List.replicate 24 0,
    parentHeaderHash := unknownHash }

/-- The pass condition of the first phase of `TestNonExistingParentAttack`
(lines 320 to 329): synchronisation must succeed, `TakeBlocks` must
surface exactly one block, and that block's parent hash must not be
locally known (the tester chain holds only `knownHash`). -/
def nonExistingParentAttackObserved (syncErr : Option DLErr)
    (bs : List EthBlock) : Bool :=
  match syncErr, bs with
  | none, [b] => !(testerHasBlock [knownHash] b.parentHeaderHash)
  | _, _ => false

/-! ## Normal forms of a running block-fetch round

The round proofs describe the queue's entry list as a cached front
followed by an unseen tail (with, for the missing-body scenarios, the
unfetchable hash in between).  These helpers build those entry lists. -/

/-- Entries all cached, with the block supplied per hash. -/
def cachedEntries (blkOf : EthHash → EthBlock) (hs : List EthHash) :
    List (EthHash × HState) :=
  hs.map (fun h => (h, HState.cached (blkOf h)))

/-- Entries all still unfetched. -/
def unseenEntries (hs : List EthHash) : List (EthHash × HState) :=
  hs.map (fun h => (h, HState.unseen))

/-- Entries all pending since `now`. -/
def pendingEntries (now : Nat) (hs : List EthHash) :
    List (EthHash × HState) :=
  hs.map (fun h => (h, HState.pending now))

/-! ## Concrete sample values used by the witness theorems -/

/-- A transaction with the given payload and neutral remaining fields. -/
def sampleTx (p : List Nat) : Transaction :=
  { price := 0, amount := 0, gasLimit := 0, payload := p, sender := none,
    recipient := none, hash := none, receipt := none }

/-- An input decoder producing a nonzero author address (to exhibit that
`Parse` ignores the decoded author). -/
def junkInputDecode : List Nat → InputMeta :=
  fun _ => { authorAddress := [7, 7], uri := "magnet:x", rawSize := 5,
             blockNum := 9 }

/-- A model decoder producing a nonzero author address. -/
def junkModelDecode : List Nat → ModelMeta :=
  fun _ => { authorAddress := [8, 8], uri := "magnet:y", rawSize := 6,
             blockNum := 10 }

/-- An idle downloader with a non-trivial queue. -/
def idleDownloader : Downloader :=
  { status := SyncStatus.idle,
    queue := ((newQueue 4 [1]).insertHashes [[2], [3]]).1 }

/-- A downloader amid a block-fetch round, its queue non-empty. -/
def activeDownloader : Downloader :=
  { status := SyncStatus.fetchingBlocks,
    queue := ((newQueue 4 [1]).insertHashes [[2], [3]]).1 }

/-- A peer that keeps resending the same incomplete hash prefix, never
reaching a locally known hash. -/
def repeatingPeer : Nat → List EthHash := fun _ => [[5], [6]]

/-- A local chain knowing only the hash `[1]`. -/
def knowsOnlyOne : EthHash → Bool := fun h => decide (h = [1])

/-! ## Claim C9: the opcode of a transaction payload -/

/-- C9: `Transaction.Op` always returns a value in `{0,1,2,3}`; with a
payload of length at least two it returns the big-endian value of the
first two bytes when that value is at most 3 and `opNoInput` otherwise;
with an empty payload it returns `opNoInput`; with a payload of length
exactly one it returns `opCommon`, not `opNoInput`. -/
theorem transaction_op_cases (t : Transaction) :
    (t.Op = 0 ∨ t.Op = 1 ∨ t.Op = 2 ∨ t.Op = 3) ∧
    (∀ b0 b1 rest, t.payload = b0 :: b1 :: rest →
      t.Op = if (b0 <<< 8) + b1 ≤ 3 then (b0 <<< 8) + b1 else opNoInput) ∧
    (t.payload = [] → t.Op = opNoInput) ∧
    (∀ b, t.payload = [b] → t.Op = opCommon) := by
  refine ⟨?_, ?_, ?_, ?_⟩
  · rcases hp : t.payload with _ | ⟨b0, _ | ⟨b1, rest⟩⟩
    · simp [Transaction.Op, hp, opNoInput]
    · simp [Transaction.Op, hp, opCommon]
    · simp only [Transaction.Op, hp, opNoInput]
      split_ifs <;> omega
  · intro b0 b1 rest hb
    simp only [Transaction.Op, hb, opNoInput]
    split_ifs <;> omega
  · intro hb
    simp [Transaction.Op, hb, opNoInput]
  · intro b hb
    simp [Transaction.Op, hb, opCommon]

/-- Witness for C9 at concrete payloads, via `transaction_op_cases`. -/
theorem transaction_op_cases_witness :
    (sampleTx [9]).Op = opCommon ∧ (sampleTx []).Op = opNoInput ∧
    (sampleTx [0, 2]).Op = if (0 <<< 8) + 2 ≤ 3 then (0 <<< 8) + 2
                           else opNoInput :=
  ⟨(transaction_op_cases (sampleTx [9])).2.2.2 9 rfl,
   (transaction_op_cases (sampleTx [])).2.2.1 rfl,
   (transaction_op_cases (sampleTx [0, 2])).2.1 0 2 [] rfl⟩

/-! ## Claim C10: `Parse` and the zero author address -/

/-- C10: for every transaction whose opcode is `opCreateModel` or
`opCreateInput`, `Parse` returns a record whose author address is the
all-zero address regardless of the decoded payload content (the address is
copied from the zero-valued meta record before the RLP decode runs); for
every other opcode `Parse` returns nothing. -/
theorem transaction_parse_author_zero (dI : List Nat → InputMeta)
    (dM : List Nat → ModelMeta) (t : Transaction) :
    (t.Op = opCreateModel ∨ t.Op = opCreateInput →
      ∃ fm, t.Parse dI dM = some fm ∧ fm.authorAddr = zeroAddress) ∧
    (t.Op ≠ opCreateModel ∧ t.Op ≠ opCreateInput →
      t.Parse dI dM = none) := by
  have hz : addressSetBytes zeroAddress = zeroAddress := by decide
  constructor
  · intro hop
    unfold Transaction.Parse
    rcases hop with hm | hi
    · have hni : t.Op ≠ opCreateInput := by
        rw [hm]; decide
      rw [if_neg hni, if_pos hm]
      exact ⟨_, rfl, hz⟩
    · rw [if_pos hi]
      exact ⟨_, rfl, hz⟩
  · intro ⟨hm, hi⟩
    unfold Transaction.Parse
    rw [if_neg hi, if_neg hm]

/-- Witness for C10: a create-input payload parsed with decoders that
return a nonzero author address still yields the zero author address, and
a common-opcode payload parses to nothing. -/
theorem transaction_parse_author_zero_witness :
    (∃ fm, (sampleTx [0, 2]).Parse junkInputDecode junkModelDecode
        = some fm ∧ fm.authorAddr = zeroAddress) ∧
    (sampleTx [9]).Parse junkInputDecode junkModelDecode = none :=
  ⟨(transaction_parse_author_zero junkInputDecode junkModelDecode
      (sampleTx [0, 2])).1 (Or.inr (by decide)),
   (transaction_parse_author_zero junkInputDecode junkModelDecode
      (sampleTx [9])).2 (by constructor <;> decide)⟩

/-! ## Claim C7: deliveries while idle -/

/-- C7: delivering hashes or blocks while the downloader is idle returns
the no-active-sync error and leaves the downloader, in particular every
queue pool, unchanged. -/
theorem deliver_while_idle (d : Downloader) (peer : String)
    (hs : List EthHash) (bs : List EthBlock)
    (hidle : d.status = SyncStatus.idle) :
    d.deliverHashes peer hs = (d, Except.error DLErr.noActiveSync) ∧
    d.deliverBlocks peer bs = (d, Except.error DLErr.noActiveSync) := by
  unfold Downloader.deliverHashes Downloader.deliverBlocks
  rw [if_pos hidle, if_pos hidle]
  exact ⟨rfl, rfl⟩

/-- Witness for C7 on a concrete idle downloader. -/
theorem deliver_while_idle_witness :
    idleDownloader.deliverHashes "bad peer 001" [[9]]
      = (idleDownloader, Except.error DLErr.noActiveSync) ∧
    idleDownloader.deliverBlocks "bad peer 001" []
      = (idleDownloader, Except.error DLErr.noActiveSync) :=
  deliver_while_idle idleDownloader "bad peer 001" [[9]] [] rfl

/-! ## Claim C8: cancellation resets the queue -/

/-- C8: when `Cancel()` reports that a round was active, the queue has
been fully reset: the outstanding-hash count and the cached-block count
reported by `size()` are both zero. -/
theorem cancel_resets_queue (d : Downloader)
    (hc : (d.cancel).2 = true) :
    (d.cancel).1.queue.size = (0, 0) := by
  unfold Downloader.cancel at hc ⊢
  by_cases hs : d.status = SyncStatus.idle
  · rw [if_pos hs] at hc; cases hc
  · rw [if_neg hs]; rfl

/-- Witness for C8 on a concrete mid-round downloader. -/
theorem cancel_resets_queue_witness :
    (activeDownloader.cancel).1.queue.size = (0, 0) :=
  cancel_resets_queue activeDownloader (by decide)

/-! ## Claim C4: the repeating-hash attack terminates with failure -/

/-- C4: a peer that never supplies a locally known hash makes the bounded
hash-walk return a failure (for every round bound): the walk neither
loops nor blocks, and no fork point is ever reported. -/
theorem repeating_hashes_fail (getHashes : Nat → List EthHash)
    (hasBlock : EthHash → Bool) (bound round : Nat) (acc : List EthHash)
    (hnone : ∀ r h, h ∈ getHashes r → hasBlock h = false) :
    ∃ e, fetchHashesLoop getHashes hasBlock bound round acc
      = Except.error e := by
  induction bound generalizing round acc with
  | zero => exact ⟨DLErr.invalidChain, rfl⟩
  | succ b ih =>
    unfold fetchHashesLoop
    by_cases hb : (getHashes round).isEmpty
    · rw [if_pos hb]; exact ⟨DLErr.peersUnavailable, rfl⟩
    · rw [if_neg hb]
      have hany : (getHashes round).any hasBlock = false := by
        rw [List.any_eq_false]
        intro h hm
        simp [hnone round h hm]
      rw [hany]
      simp only [Bool.false_eq_true, if_false]
      exact ih (round + 1) (acc ++ getHashes round)

/-- Witness for C4: a peer forever resending the prefix `[[5],[6]]`
against a chain that knows only `[1]` fails within bound 3. -/
theorem repeating_hashes_fail_witness :
    ∃ e, fetchHashesLoop repeatingPeer knowsOnlyOne 3 0 []
      = Except.error e :=
  repeating_hashes_fail repeatingPeer knowsOnlyOne 3 0 []
    (by
      intro r h hm
      unfold repeatingPeer at hm
      simp only [List.mem_cons, List.not_mem_nil, or_false] at hm
      rcases hm with rfl | rfl <;> decide)

/-! ## Claim C1: the forged-parent block and the drain

The claim says the drain rejects a single block whose stated parent is
neither the designated ancestor nor adjacent in sequence, failing with the
invalid-chain error and never surfacing the block.  The repository's own
test `TestNonExistingParentAttack` (the only in-tree artifact of this code
path) demands the opposite observable outcome: the synchronisation round
must succeed and `TakeBlocks` must surface exactly the forged block, whose
parent hash the local chain does not know; detection is performed by the
caller (which checks `hasBlock` on the surfaced parent and cancels). -/

/-- C1 (counterexample): at the concrete input of
`TestNonExistingParentAttack` — the single-link chain of
`createHashes 0 1` whose sole non-known block has its parent replaced by
`unknownHash` — the outcome the claim mandates (failed drain, no block
surfaced) fails the test, while the outcome the test mandates surfaces
the forged block even though its parent is neither the designated
ancestor (`knownHash`, the only locally known hash) nor any preceding
block (it is the only block of the batch). -/
theorem nonExistingParent_claim_refuted :
    nonExistingParentAttackObserved (some DLErr.invalidChain) [] = false ∧
    nonExistingParentAttackObserved none [forgedParentBlock] = true ∧
    (createHashes 0 1).head? = some forgedParentBlock.headerHash ∧
    forgedParentBlock.parentHeaderHash ≠ knownHash := by
  refine ⟨rfl, by decide, by decide, by decide⟩

/-- C1 (amended): in the forged-parent scenario the round succeeds and the
drain surfaces exactly the forged block; its parent hash is `unknownHash`,
which the local chain does not know (the caller's detection point); an
empty drain — what the original claim required — would fail the test. -/
theorem nonExistingParent_surfaced :
    nonExistingParentAttackObserved none [forgedParentBlock] = true ∧
    forgedParentBlock.parentHeaderHash = unknownHash ∧
    testerHasBlock [knownHash] unknownHash = false ∧
    nonExistingParentAttackObserved none [] = false := by
  refine ⟨by decide, rfl, by decide, rfl⟩

/-! ## Small evaluation lemmas for the queue helpers -/

/-- Evaluation of `isUnseen` on each constructor. -/
@[simp] theorem isUnseen_unseen : HState.unseen.isUnseen = true := rfl
/-- Evaluation of `isUnseen` on a pending state. -/
@[simp] theorem isUnseen_pending (t : Nat) :
    (HState.pending t).isUnseen = false := rfl
/-- Evaluation of `isUnseen` on a cached state. -/
@[simp] theorem isUnseen_cached (b : EthBlock) :
    (HState.cached b).isUnseen = false := rfl
/-- Evaluation of `isPend` on the unseen state. -/
@[simp] theorem isPend_unseen : HState.unseen.isPend = false := rfl
/-- Evaluation of `isPend` on a pending state. -/
@[simp] theorem isPend_pending (t : Nat) :
    (HState.pending t).isPend = true := rfl
/-- Evaluation of `isPend` on a cached state. -/
@[simp] theorem isPend_cached (b : EthBlock) :
    (HState.cached b).isPend = false := rfl
/-- Evaluation of `isCached` on the unseen state. -/
@[simp] theorem isCached_unseen : HState.unseen.isCached = false := rfl
/-- Evaluation of `isCached` on a pending state. -/
@[simp] theorem isCached_pending (t : Nat) :
    (HState.pending t).isCached = false := rfl
/-- Evaluation of `isCached` on a cached state. -/
@[simp] theorem isCached_cached (b : EthBlock) :
    (HState.cached b).isCached = true := rfl
/-- Evaluation of `toBlock` on the unseen state. -/
@[simp] theorem toBlock_unseen : HState.unseen.toBlock = none := rfl
/-- Evaluation of `toBlock` on a pending state. -/
@[simp] theorem toBlock_pending (t : Nat) :
    (HState.pending t).toBlock = none := rfl
/-- Evaluation of `toBlock` on a cached state. -/
@[simp] theorem toBlock_cached (b : EthBlock) :
    (HState.cached b).toBlock = some b := rfl

/-- Equation of `markPending` on the empty list. -/
@[simp] theorem markPending_nil (now n : Nat) :
    markPending now n [] = ([], []) := by cases n <;> rfl
/-- Equation of `markPending` with an exhausted budget. -/
@[simp] theorem markPending_zero (now : Nat) (e : EthHash × HState)
    (es : List (EthHash × HState)) :
    markPending now 0 (e :: es) = (e :: es, []) := rfl
/-- Equation of `markPending` on an unseen head. -/
@[simp] theorem markPending_unseen (now n : Nat) (h : EthHash)
    (es : List (EthHash × HState)) :
    markPending now (n + 1) ((h, HState.unseen) :: es)
      = ((h, HState.pending now) :: (markPending now n es).1,
         h :: (markPending now n es).2) := rfl
/-- Equation of `markPending` on a pending head. -/
@[simp] theorem markPending_pending (now n t : Nat) (h : EthHash)
    (es : List (EthHash × HState)) :
    markPending now (n + 1) ((h, HState.pending t) :: es)
      = ((h, HState.pending t) :: (markPending now (n + 1) es).1,
         (markPending now (n + 1) es).2) := rfl
/-- Equation of `markPending` on a cached head. -/
@[simp] theorem markPending_cached_eq (now n : Nat) (h : EthHash)
    (b : EthBlock) (es : List (EthHash × HState)) :
    markPending now (n + 1) ((h, HState.cached b) :: es)
      = ((h, HState.cached b) :: (markPending now (n + 1) es).1,
         (markPending now (n + 1) es).2) := rfl

/-- Equation of `deliverOne` on a pending head. -/
theorem deliverOne_pending (b : EthBlock) (h : EthHash) (t : Nat)
    (es : List (EthHash × HState)) :
    deliverOne b ((h, HState.pending t) :: es)
      = if h = b.headerHash then some ((h, HState.cached b) :: es)
        else
          match deliverOne b es with
          | some es2 => some ((h, HState.pending t) :: es2)
          | none => none := rfl
/-- Equation of `deliverOne` on an unseen head. -/
theorem deliverOne_unseen (b : EthBlock) (h : EthHash)
    (es : List (EthHash × HState)) :
    deliverOne b ((h, HState.unseen) :: es)
      = match deliverOne b es with
        | some es2 => some ((h, HState.unseen) :: es2)
        | none => none := rfl
/-- Equation of `deliverOne` on a cached head. -/
theorem deliverOne_cached (b : EthBlock) (h : EthHash) (b2 : EthBlock)
    (es : List (EthHash × HState)) :
    deliverOne b ((h, HState.cached b2) :: es)
      = match deliverOne b es with
        | some es2 => some ((h, HState.cached b2) :: es2)
        | none => none := rfl

/-- Equation of `expireAll` on a pending head. -/
theorem expireAll_pending (ttl now t : Nat) (h : EthHash)
    (es : List (EthHash × HState)) :
    expireAll ttl now ((h, HState.pending t) :: es)
      = if ttl < now - t then
          ((h, HState.unseen) :: (expireAll ttl now es).1,
           (expireAll ttl now es).2 + 1)
        else
          ((h, HState.pending t) :: (expireAll ttl now es).1,
           (expireAll ttl now es).2) := by
  rw [expireAll]
/-- Equation of `expireAll` on an unseen head. -/
theorem expireAll_unseen (ttl now : Nat) (h : EthHash)
    (es : List (EthHash × HState)) :
    expireAll ttl now ((h, HState.unseen) :: es)
      = ((h, HState.unseen) :: (expireAll ttl now es).1,
         (expireAll ttl now es).2) := rfl
/-- Equation of `expireAll` on a cached head. -/
theorem expireAll_cached (ttl now : Nat) (h : EthHash) (b : EthBlock)
    (es : List (EthHash × HState)) :
    expireAll ttl now ((h, HState.cached b) :: es)
      = ((h, HState.cached b) :: (expireAll ttl now es).1,
         (expireAll ttl now es).2) := rfl

/-! ## Pool-accounting lemmas for the queue operations -/

/-- Marking pending entries does not change the key sequence. -/
theorem markPending_keys (now : Nat) : ∀ (n : Nat)
    (es : List (EthHash × HState)),
    (markPending now n es).1.map Prod.fst = es.map Prod.fst := by
  intro n es
  induction es generalizing n with
  | nil => simp
  | cons e es ih =>
    obtain ⟨h, s⟩ := e
    cases n with
    | zero => simp
    | succ n => cases s <;> simp [ih]

/-- Marking pending entries does not change the cached count. -/
theorem markPending_cached (now : Nat) : ∀ (n : Nat)
    (es : List (EthHash × HState)),
    (markPending now n es).1.countP (fun e => e.2.isCached)
      = es.countP (fun e => e.2.isCached) := by
  intro n es
  induction es generalizing n with
  | nil => simp
  | cons e es ih =>
    obtain ⟨h, s⟩ := e
    cases n with
    | zero => simp
    | succ n => cases s <;> simp [List.countP_cons, ih]

/-- Marking pending entries raises the pending count by the number of
marked hashes. -/
theorem markPending_pend (now : Nat) : ∀ (n : Nat)
    (es : List (EthHash × HState)),
    (markPending now n es).1.countP (fun e => e.2.isPend)
      = es.countP (fun e => e.2.isPend) + (markPending now n es).2.length := by
  intro n es
  induction es generalizing n with
  | nil => simp
  | cons e es ih =>
    obtain ⟨h, s⟩ := e
    cases n with
    | zero => simp
    | succ n => cases s <;> simp [List.countP_cons, ih] <;> omega

/-- At most `n` hashes get marked. -/
theorem markPending_le (now : Nat) : ∀ (n : Nat)
    (es : List (EthHash × HState)),
    (markPending now n es).2.length ≤ n := by
  intro n es
  induction es generalizing n with
  | nil => simp
  | cons e es ih =>
    obtain ⟨h, s⟩ := e
    cases n with
    | zero => simp
    | succ n => cases s <;> simp [ih] <;> omega

/-- Resolving one delivered block preserves the key sequence, trades one
pending entry for one cached entry, and leaves the unseen count alone. -/
theorem deliverOne_shape (b : EthBlock) :
    ∀ (es es2 : List (EthHash × HState)), deliverOne b es = some es2 →
    es2.map Prod.fst = es.map Prod.fst ∧
    es2.countP (fun e => e.2.isCached)
      = es.countP (fun e => e.2.isCached) + 1 ∧
    es2.countP (fun e => e.2.isPend) + 1
      = es.countP (fun e => e.2.isPend) ∧
    es2.countP (fun e => e.2.isUnseen)
      = es.countP (fun e => e.2.isUnseen) := by
  intro es
  induction es with
  | nil => intro es2 hd; cases hd
  | cons e es ih =>
    intro es2 hd
    obtain ⟨h, s⟩ := e
    cases s with
    | pending t =>
      rw [deliverOne_pending] at hd
      by_cases hh : h = b.headerHash
      · rw [if_pos hh] at hd
        cases hd
        simp [List.countP_cons]
      · rw [if_neg hh] at hd
        cases hr : deliverOne b es with
        | none => rw [hr] at hd; cases hd
        | some es3 =>
          rw [hr] at hd
          cases hd
          obtain ⟨h1, h2, h3, h4⟩ := ih es3 hr
          simp [List.countP_cons, h1, h2, h4]
          omega
    | unseen =>
      rw [deliverOne_unseen] at hd
      cases hr : deliverOne b es with
      | none => rw [hr] at hd; cases hd
      | some es3 =>
        rw [hr] at hd
        cases hd
        obtain ⟨h1, h2, h3, h4⟩ := ih es3 hr
        simp [List.countP_cons, h1, h2, h4]
        omega
    | cached b2 =>
      rw [deliverOne_cached] at hd
      cases hr : deliverOne b es with
      | none => rw [hr] at hd; cases hd
      | some es3 =>
        rw [hr] at hd
        cases hd
        obtain ⟨h1, h2, h3, h4⟩ := ih es3 hr
        simp [List.countP_cons, h1, h2, h4]
        omega

/-- Delivering a batch preserves the key sequence and the combined
cached-plus-pending count, and never raises the unseen count. -/
theorem deliverAll_shape : ∀ (bs : List EthBlock)
    (es : List (EthHash × HState)),
    (deliverAll bs es).1.map Prod.fst = es.map Prod.fst ∧
    (deliverAll bs es).1.countP (fun e => e.2.isCached) +
      (deliverAll bs es).1.countP (fun e => e.2.isPend)
      = es.countP (fun e => e.2.isCached) +
        es.countP (fun e => e.2.isPend) ∧
    (deliverAll bs es).1.countP (fun e => e.2.isUnseen)
      = es.countP (fun e => e.2.isUnseen) := by
  intro bs
  induction bs with
  | nil => intro es; exact ⟨rfl, rfl, rfl⟩
  | cons b bs ih =>
    intro es
    rw [deliverAll]
    cases hr : deliverOne b es with
    | none => exact ih es
    | some es2 =>
      obtain ⟨h1, h2, h3, h4⟩ := deliverOne_shape b es es2 hr
      obtain ⟨g1, g2, g3⟩ := ih es2
      refine ⟨by simp only []; rw [g1, h1], ?_, ?_⟩
      · simp only []
        omega
      · simp only []
        omega

/-- Expiring entries preserves the key sequence and the cached count, and
never raises the pending count. -/
theorem expireAll_shape (ttl now : Nat) : ∀ (es : List (EthHash × HState)),
    (expireAll ttl now es).1.map Prod.fst = es.map Prod.fst ∧
    (expireAll ttl now es).1.countP (fun e => e.2.isCached)
      = es.countP (fun e => e.2.isCached) ∧
    (expireAll ttl now es).1.countP (fun e => e.2.isPend)
      ≤ es.countP (fun e => e.2.isPend) := by
  intro es
  induction es with
  | nil => exact ⟨rfl, rfl, Nat.le_refl 0⟩
  | cons e es ih =>
    obtain ⟨h1, h2, h3⟩ := ih
    obtain ⟨h, s⟩ := e
    cases s with
    | pending t =>
      rw [expireAll_pending]
      by_cases ht : ttl < now - t
      · rw [if_pos ht]
        refine ⟨by simp [h1], ?_, ?_⟩
        · simp [List.countP_cons, h2]
        · simp [List.countP_cons, h3]
          omega
      · rw [if_neg ht]
        refine ⟨by simp [h1], ?_, ?_⟩
        · simp [List.countP_cons, h2]
        · simp [List.countP_cons]
          omega
    | unseen =>
      rw [expireAll_unseen]
      refine ⟨by simp [h1], ?_, ?_⟩
      · simp [List.countP_cons, h2]
      · simp [List.countP_cons, h3]
    | cached b =>
      rw [expireAll_cached]
      refine ⟨by simp [h1], ?_, ?_⟩
      · simp [List.countP_cons, h2]
      · simp [List.countP_cons, h3]

/-- Equation of `insertHashes` on the empty batch. -/
theorem insertHashes_nil (q : BlockQueue) : q.insertHashes [] = (q, 0) := rfl

/-- Equation of `insertHashes` on a batch head. -/
theorem insertHashes_cons (q : BlockQueue) (h : EthHash)
    (rest : List EthHash) :
    q.insertHashes (h :: rest)
      = if q.knows h then q.insertHashes rest
        else
          (({ q with entries := q.entries ++ [(h, HState.unseen)]
            }.insertHashes rest).1,
           ({ q with entries := q.entries ++ [(h, HState.unseen)]
            }.insertHashes rest).2 + 1) := rfl

/-- Unfolding handle: `requestBlocks` only rewrites the entry list. -/
theorem requestBlocks_entries (q : BlockQueue) (now maxBatch : Nat) :
    (q.requestBlocks now maxBatch).1.entries
      = (markPending now
          (min maxBatch (q.limit - (q.cacheCount + q.pendingCount)))
          q.entries).1 := rfl

/-- Unfolding handle: the request batch returned by `requestBlocks`. -/
theorem requestBlocks_batch (q : BlockQueue) (now maxBatch : Nat) :
    (q.requestBlocks now maxBatch).2
      = (markPending now
          (min maxBatch (q.limit - (q.cacheCount + q.pendingCount)))
          q.entries).2 := rfl

/-- Unfolding handle: `requestBlocks` keeps the configured limit. -/
theorem requestBlocks_limit (q : BlockQueue) (now maxBatch : Nat) :
    (q.requestBlocks now maxBatch).1.limit = q.limit := rfl

/-- Unfolding handle: `deliver` only rewrites the entry list. -/
theorem deliver_entries (q : BlockQueue) (peer : String)
    (bs : List EthBlock) :
    (q.deliver peer bs).1.entries = (deliverAll bs q.entries).1 := rfl

/-- Unfolding handle: `deliver` keeps the configured limit. -/
theorem deliver_limit (q : BlockQueue) (peer : String)
    (bs : List EthBlock) : (q.deliver peer bs).1.limit = q.limit := rfl

/-- Unfolding handle: `expire` only rewrites the entry list. -/
theorem expire_entries (q : BlockQueue) (ttl now : Nat) :
    (q.expire ttl now).1.entries = (expireAll ttl now q.entries).1 := rfl

/-- Unfolding handle: `expire` keeps the configured limit. -/
theorem expire_limit (q : BlockQueue) (ttl now : Nat) :
    (q.expire ttl now).1.limit = q.limit := rfl

/-- Unfolding handle: the cached count is a `countP` over the entries. -/
theorem cacheCount_def (q : BlockQueue) :
    q.cacheCount = q.entries.countP (fun e => e.2.isCached) := rfl

/-- Unfolding handle: the pending count is a `countP` over the entries. -/
theorem pendingCount_def (q : BlockQueue) :
    q.pendingCount = q.entries.countP (fun e => e.2.isPend) := rfl

/-- Unfolding handle: the unseen count is a `countP` over the entries. -/
theorem hashPoolCount_def (q : BlockQueue) :
    q.hashPoolCount = q.entries.countP (fun e => e.2.isUnseen) := rfl

/-- Unfolding handle: `applyOps` on an operation head. -/
theorem applyOps_cons (q : BlockQueue) (op : QOp) (ops : List QOp) :
    applyOps q (op :: ops) = applyOps (applyOp q op) ops := rfl

/-- Inserting hashes keeps the limit, the cached and pending counts, and
(thanks to the dedup check) the distinctness of the entry keys. -/
theorem insertHashes_inv : ∀ (hs : List EthHash) (q : BlockQueue),
    (q.insertHashes hs).1.limit = q.limit ∧
    (q.insertHashes hs).1.cacheCount = q.cacheCount ∧
    (q.insertHashes hs).1.pendingCount = q.pendingCount ∧
    ((q.entries.map Prod.fst).Nodup →
      ((q.insertHashes hs).1.entries.map Prod.fst).Nodup) := by
  intro hs
  induction hs with
  | nil => intro q; exact ⟨rfl, rfl, rfl, fun hn => hn⟩
  | cons h rest ih =>
    intro q
    rw [insertHashes_cons]
    by_cases hk : q.knows h
    · simp only [if_pos hk]
      exact ih q
    · simp only [if_neg hk]
      obtain ⟨g1, g2, g3, g4⟩ :=
        ih { q with entries := q.entries ++ [(h, HState.unseen)] }
      have hcache : ({ q with entries := q.entries ++ [(h, HState.unseen)]
          } : BlockQueue).cacheCount = q.cacheCount := by
        rw [cacheCount_def, cacheCount_def]
        simp [List.countP_append]
      have hpend : ({ q with entries := q.entries ++ [(h, HState.unseen)]
          } : BlockQueue).pendingCount = q.pendingCount := by
        rw [pendingCount_def, pendingCount_def]
        simp [List.countP_append]
      refine ⟨g1, by rw [g2, hcache], by rw [g3, hpend], ?_⟩
      intro hn
      apply g4
      have hmem : h ∉ q.entries.map Prod.fst := by
        intro hm
        apply hk
        unfold BlockQueue.knows
        rw [Bool.or_eq_true]
        exact Or.inl (List.elem_iff.mpr hm)
      simp [List.nodup_append, hn, hmem]

/-- Draining keeps the limit, never raises any pool count, and preserves
key distinctness (the entry list only loses a front segment). -/
theorem takeAssembled_inv (q : BlockQueue) :
    q.takeAssembled.1.limit = q.limit ∧
    q.takeAssembled.1.cacheCount ≤ q.cacheCount ∧
    q.takeAssembled.1.pendingCount ≤ q.pendingCount ∧
    ((q.entries.map Prod.fst).Nodup →
      (q.takeAssembled.1.entries.map Prod.fst).Nodup) := by
  unfold BlockQueue.takeAssembled
  cases hv : validateChain q.ancestor q.prev
      ((q.entries.takeWhile (fun e => e.2.isCached)).filterMap
        (fun e => e.2.toBlock)) with
  | error e =>
    simp only [hv]
    exact ⟨by trivial, Nat.le_refl _, Nat.le_refl _, fun hn => hn⟩
  | ok p2 =>
    simp only [hv]
    have hsub : List.Sublist
        (q.entries.drop
          (q.entries.takeWhile (fun e => e.2.isCached)).length)
        q.entries := List.drop_sublist _ _
    refine ⟨by trivial, hsub.countP_le _, hsub.countP_le _, ?_⟩
    intro hn
    exact List.Nodup.sublist (List.Sublist.map Prod.fst hsub) hn

/-- The two maintained facts of a queue - distinct entry keys and the
cache-plus-pending bound - survive every single operation. -/
theorem applyOp_inv (q : BlockQueue) (op : QOp)
    (hn : (q.entries.map Prod.fst).Nodup)
    (hb : q.cacheCount + q.pendingCount ≤ q.limit) :
    ((applyOp q op).entries.map Prod.fst).Nodup ∧
    (applyOp q op).cacheCount + (applyOp q op).pendingCount
      ≤ (applyOp q op).limit ∧
    (applyOp q op).limit = q.limit := by
  cases op with
  | insert hs =>
    simp only [applyOp]
    obtain ⟨g1, g2, g3, g4⟩ := insertHashes_inv hs q
    exact ⟨g4 hn, by rw [g1, g2, g3]; exact hb, g1⟩
  | request now maxBatch =>
    simp only [applyOp]
    refine ⟨?_, ?_, requestBlocks_limit q now maxBatch⟩
    · rw [requestBlocks_entries, markPending_keys]
      exact hn
    · rw [requestBlocks_limit, cacheCount_def, pendingCount_def,
        requestBlocks_entries, markPending_cached, markPending_pend]
      have hle2 : (markPending now
          (min maxBatch (q.limit - (q.cacheCount + q.pendingCount)))
          q.entries).2.length
          ≤ q.limit - (q.cacheCount + q.pendingCount) :=
        le_trans (markPending_le _ _ _) (Nat.min_le_right _ _)
      rw [cacheCount_def, pendingCount_def] at hb hle2 ⊢
      omega
  | deliver peer bs =>
    simp only [applyOp]
    rw [deliver_limit, cacheCount_def, pendingCount_def, deliver_entries]
    obtain ⟨g1, g2, g3⟩ := deliverAll_shape bs q.entries
    refine ⟨by rw [g1]; exact hn, ?_, rfl⟩
    rw [cacheCount_def, pendingCount_def] at hb
    omega
  | expire ttl now =>
    simp only [applyOp]
    rw [expire_limit, cacheCount_def, pendingCount_def, expire_entries]
    obtain ⟨g1, g2, g3⟩ := expireAll_shape ttl now q.entries
    refine ⟨by rw [g1]; exact hn, ?_, rfl⟩
    rw [cacheCount_def, pendingCount_def] at hb
    omega
  | take =>
    simp only [applyOp]
    obtain ⟨g1, g2, g3, g4⟩ := takeAssembled_inv q
    exact ⟨g4 hn, by rw [g1]; omega, g1⟩

/-- The maintained queue facts survive any operation sequence. -/
theorem applyOps_inv : ∀ (ops : List QOp) (q : BlockQueue),
    (q.entries.map Prod.fst).Nodup →
    q.cacheCount + q.pendingCount ≤ q.limit →
    ((applyOps q ops).entries.map Prod.fst).Nodup ∧
    (applyOps q ops).cacheCount + (applyOps q ops).pendingCount
      ≤ (applyOps q ops).limit ∧
    (applyOps q ops).limit = q.limit := by
  intro ops
  induction ops with
  | nil => intro q hn hb; exact ⟨hn, hb, rfl⟩
  | cons op ops ih =>
    intro q hn hb
    obtain ⟨g1, g2, g3⟩ := applyOp_inv q op hn hb
    obtain ⟨f1, f2, f3⟩ := ih (applyOp q op) g1 g2
    rw [applyOps_cons]
    exact ⟨f1, f2, by rw [f3, g3]⟩

/-- Distinct keys force a unique state per hash. -/
theorem key_state_unique : ∀ (es : List (EthHash × HState)),
    (es.map Prod.fst).Nodup →
    ∀ (h : EthHash) (s1 s2 : HState),
      (h, s1) ∈ es → (h, s2) ∈ es → s1 = s2 := by
  intro es
  induction es with
  | nil => intro _ h s1 s2 hm; cases hm
  | cons e es ih =>
    intro hn h s1 s2 hm1 hm2
    rw [List.map_cons, List.nodup_cons] at hn
    rcases List.mem_cons.mp hm1 with he1 | ht1 <;>
      rcases List.mem_cons.mp hm2 with he2 | ht2
    · rw [← he2] at he1; exact congrArg Prod.snd he1
    · exfalso
      apply hn.1
      rw [← he1]
      exact List.mem_map.mpr ⟨(h, s2), ht2, rfl⟩
    · exfalso
      apply hn.1
      rw [← he2]
      exact List.mem_map.mpr ⟨(h, s1), ht1, rfl⟩
    · exact ih hn.2 h s1 s2 ht1 ht2

/-- Membership in a pool projection exhibits a matching entry. -/
theorem mem_pool_state (es : List (EthHash × HState))
    (p : EthHash × HState → Bool) (h : EthHash) :
    h ∈ (es.filter p).map Prod.fst →
    ∃ s, (h, s) ∈ es ∧ p (h, s) = true := by
  intro hm
  obtain ⟨e, he, hfst⟩ := List.mem_map.mp hm
  obtain ⟨hmem, hpred⟩ := List.mem_filter.mp he
  obtain ⟨h2, s⟩ := e
  cases hfst
  exact ⟨s, hmem, hpred⟩

/-- Distinct entry keys put each hash in at most one of the three pools. -/
theorem poolsHolding_le_one (q : BlockQueue)
    (hn : (q.entries.map Prod.fst).Nodup) (h : EthHash) :
    q.poolsHolding h ≤ 1 := by
  unfold BlockQueue.poolsHolding
  by_cases h1 : h ∈ q.hashPool <;> by_cases h2 : h ∈ q.pendingPool <;>
    by_cases h3 : h ∈ q.blockCache <;>
    simp only [h1, h2, h3, if_true, if_false] <;> try omega
  all_goals exfalso
  · obtain ⟨s1, hm1, hp1⟩ := mem_pool_state q.entries _ h h1
    obtain ⟨s2, hm2, hp2⟩ := mem_pool_state q.entries _ h h2
    have := key_state_unique q.entries hn h s1 s2 hm1 hm2
    subst this
    cases s1 <;> simp at hp1 hp2
  · obtain ⟨s1, hm1, hp1⟩ := mem_pool_state q.entries _ h h1
    obtain ⟨s2, hm2, hp2⟩ := mem_pool_state q.entries _ h h2
    have := key_state_unique q.entries hn h s1 s2 hm1 hm2
    subst this
    cases s1 <;> simp at hp1 hp2
  · obtain ⟨s1, hm1, hp1⟩ := mem_pool_state q.entries _ h h1
    obtain ⟨s2, hm2, hp2⟩ := mem_pool_state q.entries _ h h3
    have := key_state_unique q.entries hn h s1 s2 hm1 hm2
    subst this
    cases s1 <;> simp at hp1 hp2
  · obtain ⟨s1, hm1, hp1⟩ := mem_pool_state q.entries _ h h2
    obtain ⟨s2, hm2, hp2⟩ := mem_pool_state q.entries _ h h3
    have := key_state_unique q.entries hn h s1 s2 hm1 hm2
    subst this
    cases s1 <;> simp at hp1 hp2

/-! ## Claim C3: pool invariants at every observation point -/

/-- C3: starting from a fresh queue, after any sequence of queue
operations (`insertHashes`, `requestBlocks`, `deliver`, `expire`,
`takeAssembled`) the block cache never holds more than `blockCacheLimit`
entries, and every hash sits in at most one of the three pools
(`hashPool`, `pendingPool`, `blockCache`). -/
theorem queue_pool_invariants (limit : Nat) (anc : EthHash)
    (ops : List QOp) :
    (applyOps (newQueue limit anc) ops).cacheCount ≤ limit ∧
    ∀ h : EthHash,
      (applyOps (newQueue limit anc) ops).poolsHolding h ≤ 1 := by
  have h0n : (((newQueue limit anc).entries).map Prod.fst).Nodup :=
    List.nodup_nil
  have h0b : (newQueue limit anc).cacheCount
      + (newQueue limit anc).pendingCount ≤ (newQueue limit anc).limit := by
    rw [cacheCount_def, pendingCount_def]
    simp [newQueue]
  obtain ⟨g1, g2, g3⟩ := applyOps_inv ops (newQueue limit anc) h0n h0b
  constructor
  · have hl : (newQueue limit anc).limit = limit := rfl
    rw [hl] at g3
    omega
  · intro h
    exact poolsHolding_le_one _ g1 h

/-! ## Normal-form computation lemmas for the block-fetch round -/

/-- Counting lemma: a cached front is all cached. -/
@[simp] theorem countP_cachedEntries_cached (blkOf : EthHash → EthBlock) :
    ∀ hs : List EthHash,
    (cachedEntries blkOf hs).countP (fun e => e.2.isCached) = hs.length := by
  intro hs
  induction hs with
  | nil => rfl
  | cons h t ih => simp [cachedEntries, List.countP_cons, ih] at ih ⊢

/-- Counting lemma: a cached front holds nothing pending. -/
@[simp] theorem countP_cachedEntries_pend (blkOf : EthHash → EthBlock) :
    ∀ hs : List EthHash,
    (cachedEntries blkOf hs).countP (fun e => e.2.isPend) = 0 := by
  intro hs
  induction hs with
  | nil => rfl
  | cons h t ih => simp [cachedEntries, List.countP_cons, ih] at ih ⊢

/-- Counting lemma: a cached front holds nothing unseen. -/
@[simp] theorem countP_cachedEntries_unseen (blkOf : EthHash → EthBlock) :
    ∀ hs : List EthHash,
    (cachedEntries blkOf hs).countP (fun e => e.2.isUnseen) = 0 := by
  intro hs
  induction hs with
  | nil => rfl
  | cons h t ih => simp [cachedEntries, List.countP_cons, ih] at ih ⊢

/-- Counting lemma: an unseen tail is all unseen. -/
@[simp] theorem countP_unseenEntries_unseen :
    ∀ hs : List EthHash,
    (unseenEntries hs).countP (fun e => e.2.isUnseen) = hs.length := by
  intro hs
  induction hs with
  | nil => rfl
  | cons h t ih => simp [unseenEntries, List.countP_cons, ih] at ih ⊢

/-- Counting lemma: an unseen tail holds nothing cached. -/
@[simp] theorem countP_unseenEntries_cached :
    ∀ hs : List EthHash,
    (unseenEntries hs).countP (fun e => e.2.isCached) = 0 := by
  intro hs
  induction hs with
  | nil => rfl
  | cons h t ih => simp [unseenEntries, List.countP_cons, ih] at ih ⊢

/-- Counting lemma: an unseen tail holds nothing pending. -/
@[simp] theorem countP_unseenEntries_pend :
    ∀ hs : List EthHash,
    (unseenEntries hs).countP (fun e => e.2.isPend) = 0 := by
  intro hs
  induction hs with
  | nil => rfl
  | cons h t ih => simp [unseenEntries, List.countP_cons, ih] at ih ⊢

/-- A cached-front-plus-unseen-tail entry list holds nothing pending. -/
theorem NF_no_pend (blkOf : EthHash → EthBlock) (σc σu : List EthHash) :
    ∀ e ∈ cachedEntries blkOf σc ++ unseenEntries σu,
      e.2.isPend = false := by
  intro e he
  rcases List.mem_append.mp he with hc | hu
  · obtain ⟨h, _, rfl⟩ := List.mem_map.mp hc
    rfl
  · obtain ⟨h, _, rfl⟩ := List.mem_map.mp hu
    rfl

/-- The TTL sweep does nothing when nothing is pending. -/
theorem expireAll_no_pending (ttl now : Nat) :
    ∀ es : List (EthHash × HState),
    (∀ e ∈ es, e.2.isPend = false) → expireAll ttl now es = (es, 0) := by
  intro es
  induction es with
  | nil => intro _; rfl
  | cons e es ih =>
    intro hp
    obtain ⟨h, s⟩ := e
    cases s with
    | pending t =>
      have := hp (h, HState.pending t) (List.mem_cons_self _ _)
      simp at this
    | unseen =>
      rw [expireAll_unseen,
        ih (fun e he => hp e (List.mem_cons_of_mem _ he))]
    | cached b =>
      rw [expireAll_cached,
        ih (fun e he => hp e (List.mem_cons_of_mem _ he))]

/-- A spent request budget marks nothing. -/
theorem markPending_zero_any (now : Nat) (es : List (EthHash × HState)) :
    markPending now 0 es = (es, []) := by cases es <;> rfl

/-- The request marker walks straight past a cached front. -/
theorem markPending_skip_cached (now : Nat) (blkOf : EthHash → EthBlock) :
    ∀ (σc : List EthHash) (n : Nat) (rest : List (EthHash × HState)),
    markPending now n (cachedEntries blkOf σc ++ rest)
      = (cachedEntries blkOf σc ++ (markPending now n rest).1,
         (markPending now n rest).2) := by
  intro σc
  induction σc with
  | nil => intro n rest; simp [cachedEntries]
  | cons h t ih =>
    intro n rest
    cases n with
    | zero => simp [markPending_zero_any]
    | succ n =>
      have hcons : cachedEntries blkOf (h :: t) ++ rest
          = (h, HState.cached (blkOf h)) :: (cachedEntries blkOf t ++ rest) := by
        simp [cachedEntries]
      rw [hcons, markPending_cached_eq, ih (n + 1) rest]
      simp [cachedEntries]

/-- The request marker turns the first `n` unseen entries pending. -/
theorem markPending_unseen_list (now : Nat) :
    ∀ (σu : List EthHash) (n : Nat),
    markPending now n (unseenEntries σu)
      = (pendingEntries now (σu.take n) ++ unseenEntries (σu.drop n),
         σu.take n) := by
  intro σu
  induction σu with
  | nil => intro n; simp [unseenEntries, pendingEntries]
  | cons h t ih =>
    intro n
    cases n with
    | zero => simp [markPending_zero_any, pendingEntries]
    | succ n =>
      have hcons : unseenEntries (h :: t)
          = (h, HState.unseen) :: unseenEntries t := by
        simp [unseenEntries]
      rw [hcons, markPending_unseen, ih n]
      simp [pendingEntries, unseenEntries]

/-- A supply defined on every listed hash filters to a plain map. -/
theorem filterMap_eq_map_on (f : EthHash → Option EthBlock)
    (g : EthHash → EthBlock) :
    ∀ hs : List EthHash, (∀ h ∈ hs, f h = some (g h)) →
    hs.filterMap f = hs.map g := by
  intro hs
  induction hs with
  | nil => intro _; rfl
  | cons h t ih =>
    intro hf
    rw [List.filterMap_cons, hf h (List.mem_cons_self _ _), List.map_cons,
      ih (fun x hx => hf x (List.mem_cons_of_mem _ hx))]

/-- Equation of `deliverAll` on a block head. -/
theorem deliverAll_cons (b : EthBlock) (bs : List EthBlock)
    (es : List (EthHash × HState)) :
    deliverAll (b :: bs) es
      = match deliverOne b es with
        | some es2 => ((deliverAll bs es2).1, (deliverAll bs es2).2 + 1)
        | none => deliverAll bs es := rfl

/-- Delivery resolution walks straight past entries that are not pending
under the block's hash. -/
theorem deliverOne_skip (b : EthBlock) :
    ∀ (pre es : List (EthHash × HState)),
    (∀ e ∈ pre, e.2.isPend = false) →
    deliverOne b (pre ++ es)
      = match deliverOne b es with
        | some es2 => some (pre ++ es2)
        | none => none := by
  intro pre
  induction pre with
  | nil =>
    intro es _
    cases hr : deliverOne b es <;> simp [hr]
  | cons e pre ih =>
    intro es hp
    obtain ⟨h, s⟩ := e
    cases s with
    | pending t =>
      have := hp (h, HState.pending t) (List.mem_cons_self _ _)
      simp at this
    | unseen =>
      rw [List.cons_append, deliverOne_unseen,
        ih es (fun e he => hp e (List.mem_cons_of_mem _ he))]
      cases hr : deliverOne b es <;> simp
    | cached b2 =>
      rw [List.cons_append, deliverOne_cached,
        ih es (fun e he => hp e (List.mem_cons_of_mem _ he))]
      cases hr : deliverOne b es <;> simp

/-- Delivering the blocks of the freshly marked batch caches exactly that
batch, in place, resolving every one of its hashes. -/
theorem deliverAll_fill (blkOf : EthHash → EthBlock) (now : Nat) :
    ∀ (hs : List EthHash) (pre : List (EthHash × HState))
      (rest : List EthHash),
    (∀ e ∈ pre, e.2.isPend = false) →
    (∀ h ∈ hs, (blkOf h).headerHash = h) →
    deliverAll (hs.map blkOf)
        (pre ++ (pendingEntries now hs ++ unseenEntries rest))
      = (pre ++ (cachedEntries blkOf hs ++ unseenEntries rest),
         hs.length) := by
  intro hs
  induction hs with
  | nil =>
    intro pre rest _ _
    simp [pendingEntries, cachedEntries, deliverAll]
  | cons h t ih =>
    intro pre rest hpre hhh
    rw [List.map_cons, show pendingEntries now (h :: t)
        = (h, HState.pending now) :: pendingEntries now t from rfl,
      deliverAll_cons]
    have hone : deliverOne (blkOf h)
        (pre ++ ((h, HState.pending now) :: pendingEntries now t
          ++ unseenEntries rest))
        = some (pre ++ ((h, HState.cached (blkOf h)) ::
            (pendingEntries now t ++ unseenEntries rest))) := by
      rw [List.cons_append, deliverOne_skip (blkOf h) pre _ hpre,
        deliverOne_pending, if_pos (hhh h (List.mem_cons_self _ _)).symm]
    simp only [hone]
    have harg : pre ++ ((h, HState.cached (blkOf h)) ::
          (pendingEntries now t ++ unseenEntries rest))
        = (pre ++ [(h, HState.cached (blkOf h))]) ++
            (pendingEntries now t ++ unseenEntries rest) := by
      simp
    rw [harg, ih (pre ++ [(h, HState.cached (blkOf h))]) rest ?_ ?_]
    · have hce : cachedEntries blkOf (h :: t)
          = (h, HState.cached (blkOf h)) :: cachedEntries blkOf t := rfl
      rw [hce]
      simp
    · intro e he
      rcases List.mem_append.mp he with h1 | h2
      · exact hpre e h1
      · simp at h2
        subst h2
        rfl
    · intro x hx
      exact hhh x (List.mem_cons_of_mem _ hx)

/-- The drainable front of a cached-plus-unseen entry list is exactly the
cached part. -/
theorem takeWhile_NF (blkOf : EthHash → EthBlock) (σu : List EthHash) :
    ∀ σc : List EthHash,
    (cachedEntries blkOf σc ++ unseenEntries σu).takeWhile
        (fun e => e.2.isCached)
      = cachedEntries blkOf σc := by
  intro σc
  induction σc with
  | nil =>
    cases σu with
    | nil => rfl
    | cons h t => simp [cachedEntries, unseenEntries, List.takeWhile_cons]
  | cons h t ih =>
    simp only [cachedEntries, List.map_cons, List.cons_append,
      List.takeWhile_cons]
    simp only [isCached_cached, if_true]
    rw [show (List.map (fun h => (h, HState.cached (blkOf h))) t : List (EthHash × HState)) = cachedEntries blkOf t from rfl, ih]

/-- The blocks of a cached front. -/
theorem filterMap_cachedEntries (blkOf : EthHash → EthBlock) :
    ∀ σc : List EthHash,
    (cachedEntries blkOf σc).filterMap (fun e => e.2.toBlock)
      = σc.map blkOf := by
  intro σc
  induction σc with
  | nil => rfl
  | cons h t ih =>
    rw [show cachedEntries blkOf (h :: t)
        = (h, HState.cached (blkOf h)) :: cachedEntries blkOf t from rfl,
      List.filterMap_cons, List.map_cons]
    simp [ih]

/-- The keys of a cached front. -/
theorem map_fst_cachedEntries (blkOf : EthHash → EthBlock) :
    ∀ σc : List EthHash,
    (cachedEntries blkOf σc).map (fun e => e.1) = σc := by
  intro σc
  induction σc with
  | nil => rfl
  | cons h t ih => simp [cachedEntries] at ih ⊢; exact ih

/-- Equation of `validateChain` on the empty sequence. -/
theorem validateChain_nil (anc p : EthHash) :
    validateChain anc p [] = Except.ok p := rfl

/-- Equation of `validateChain` on a block head. -/
theorem validateChain_cons (anc p : EthHash) (b : EthBlock)
    (bs : List EthBlock) :
    validateChain anc p (b :: bs)
      = if b.parentHeaderHash = anc ∨ b.parentHeaderHash = p then
          validateChain anc b.headerHash bs
        else Except.error DLErr.invalidChain := rfl

/-- Chain validation processes an appended sequence in two stages. -/
theorem validateChain_append (anc : EthHash) :
    ∀ (xs ys : List EthBlock) (p : EthHash),
    validateChain anc p (xs ++ ys)
      = match validateChain anc p xs with
        | Except.ok p2 => validateChain anc p2 ys
        | Except.error e => Except.error e := by
  intro xs
  induction xs with
  | nil => intro ys p; rfl
  | cons b bs ih =>
    intro ys p
    rw [List.cons_append, validateChain_cons, validateChain_cons]
    by_cases hb : b.parentHeaderHash = anc ∨ b.parentHeaderHash = p
    · rw [if_pos hb, if_pos hb, ih]
    · rw [if_neg hb, if_neg hb]

/-- Lengths of the normal-form entry builders. -/
@[simp] theorem cachedEntries_length (blkOf : EthHash → EthBlock)
    (hs : List EthHash) : (cachedEntries blkOf hs).length = hs.length := by
  simp [cachedEntries]

/-- Length of an unseen tail. -/
@[simp] theorem unseenEntries_length (hs : List EthHash) :
    (unseenEntries hs).length = hs.length := by
  simp [unseenEntries]

/-- Cache count of a normal-form queue. -/
theorem NF_cacheCount (blkOf : EthHash → EthBlock) (σc σu : List EthHash)
    (limit : Nat) (anc p : EthHash) (past : List EthHash) :
    (⟨cachedEntries blkOf σc ++ unseenEntries σu, limit, anc, p, past⟩
      : BlockQueue).cacheCount = σc.length := by
  rw [cacheCount_def]
  simp [List.countP_append]

/-- Pending count of a normal-form queue. -/
theorem NF_pendingCount (blkOf : EthHash → EthBlock) (σc σu : List EthHash)
    (limit : Nat) (anc p : EthHash) (past : List EthHash) :
    (⟨cachedEntries blkOf σc ++ unseenEntries σu, limit, anc, p, past⟩
      : BlockQueue).pendingCount = 0 := by
  rw [pendingCount_def]
  simp [List.countP_append]

/-- Outstanding count of a normal-form queue. -/
theorem NF_outstanding (blkOf : EthHash → EthBlock) (σc σu : List EthHash)
    (limit : Nat) (anc p : EthHash) (past : List EthHash) :
    (⟨cachedEntries blkOf σc ++ unseenEntries σu, limit, anc, p, past⟩
      : BlockQueue).outstanding = σu.length := by
  unfold BlockQueue.outstanding
  rw [hashPoolCount_def, pendingCount_def]
  simp [List.countP_append]

/-- The TTL sweep leaves a queue without pending entries unchanged. -/
theorem expire_no_pend (q : BlockQueue) (ttl now : Nat)
    (h : ∀ e ∈ q.entries, e.2.isPend = false) :
    (q.expire ttl now).1 = q := by
  unfold BlockQueue.expire
  rw [expireAll_no_pending ttl now q.entries h]

/-- Draining a normal-form queue validates and removes exactly its cached
front. -/
theorem takeAssembled_NF (blkOf : EthHash → EthBlock)
    (σc σu : List EthHash) (limit : Nat) (anc p : EthHash)
    (past : List EthHash) :
    (⟨cachedEntries blkOf σc ++ unseenEntries σu, limit, anc, p, past⟩
      : BlockQueue).takeAssembled
      = match validateChain anc p (σc.map blkOf) with
        | Except.error e =>
          (⟨cachedEntries blkOf σc ++ unseenEntries σu, limit, anc, p,
            past⟩, Except.error e)
        | Except.ok p2 =>
          (⟨unseenEntries σu, limit, anc, p2, past ++ σc⟩,
           Except.ok (σc.map blkOf)) := by
  unfold BlockQueue.takeAssembled
  simp only [takeWhile_NF, filterMap_cachedEntries, map_fst_cachedEntries,
    cachedEntries_length]
  cases hv : validateChain anc p (σc.map blkOf) with
  | error e => rfl
  | ok p2 =>
    simp only []
    have hd : List.drop σc.length
        (cachedEntries blkOf σc ++ unseenEntries σu) = unseenEntries σu := by
      rw [← cachedEntries_length blkOf σc]
      exact List.drop_left _ _
    rw [hd]

/-- Unfolding equation of the round loop at spent fuel. -/
theorem syncRoundAux_zero (blockFor : EthHash → Option EthBlock)
    (maxBatch ttl maxAtt : Nat) (sched : List Bool) (now : Nat)
    (st : RoundState) :
    syncRoundAux blockFor maxBatch ttl maxAtt 0 sched now st
      = if st.q.outstanding = 0 then some (finishRound st) else none := rfl

/-- Unfolding equation of the round loop with fuel to burn. -/
theorem syncRoundAux_succ (blockFor : EthHash → Option EthBlock)
    (maxBatch ttl maxAtt f : Nat) (sched : List Bool) (now : Nat)
    (st : RoundState) :
    syncRoundAux blockFor maxBatch ttl maxAtt (f + 1) sched now st
      = if st.q.outstanding = 0 then some (finishRound st)
        else
          match roundStep blockFor maxBatch ttl maxAtt
              (sched.headD false) now st with
          | Except.error e => some (Except.error e)
          | Except.ok st2 =>
            syncRoundAux blockFor maxBatch ttl maxAtt f sched.tail
              (now + 1) st2 := rfl

/-- The cached front distributes over appended hash lists. -/
@[simp] theorem cachedEntries_append (blkOf : EthHash → EthBlock)
    (a b : List EthHash) :
    cachedEntries blkOf (a ++ b)
      = cachedEntries blkOf a ++ cachedEntries blkOf b := by
  simp [cachedEntries]

/-- The cached front of no hashes. -/
@[simp] theorem cachedEntries_nil (blkOf : EthHash → EthBlock) :
    cachedEntries blkOf [] = [] := rfl

/-- The unseen tail of no hashes. -/
@[simp] theorem unseenEntries_nil : unseenEntries [] = [] := rfl

/-- The pending batch of no hashes. -/
@[simp] theorem pendingEntries_nil (now : Nat) :
    pendingEntries now [] = [] := rfl

/-- The final drain of a normal-form round state. -/
theorem finishRound_NF (blkOf : EthHash → EthBlock)
    (σc σu : List EthHash) (limit : Nat) (anc p : EthHash)
    (past : List EthHash) (acc : List EthBlock) (att : Nat) :
    finishRound
      ⟨⟨cachedEntries blkOf σc ++ unseenEntries σu, limit, anc, p, past⟩,
       acc, att⟩
      = match validateChain anc p (σc.map blkOf) with
        | Except.error e => Except.error e
        | Except.ok _ => Except.ok (acc ++ σc.map blkOf) := by
  unfold finishRound
  simp only []
  rw [takeAssembled_NF]
  cases hv : validateChain anc p (σc.map blkOf) <;> simp only []

/-- The request batch of a normal-form queue. -/
theorem requestBlocks_NF (blkOf : EthHash → EthBlock)
    (σc σu : List EthHash) (limit : Nat) (anc p : EthHash)
    (past : List EthHash) (now maxBatch n : Nat)
    (hn : n = min maxBatch (limit - σc.length)) :
    (⟨cachedEntries blkOf σc ++ unseenEntries σu, limit, anc, p, past⟩
      : BlockQueue).requestBlocks now maxBatch
      = (⟨cachedEntries blkOf σc ++
            (pendingEntries now (σu.take n) ++ unseenEntries (σu.drop n)),
          limit, anc, p, past⟩,
         σu.take n) := by
  unfold BlockQueue.requestBlocks
  rw [NF_cacheCount, NF_pendingCount, Nat.add_zero]
  simp only []
  rw [markPending_skip_cached, markPending_unseen_list, ← hn]

/-- One round iteration on a normal-form state with outstanding unseen
hashes, all of them suppliable: the three possible outcomes. -/
theorem roundStep_NF (blockFor : EthHash → Option EthBlock)
    (blkOf : EthHash → EthBlock) (maxBatch ttl maxAtt : Nat)
    (takeFlag : Bool) (now limit : Nat) (anc p : EthHash)
    (past : List EthHash) (acc : List EthBlock) (att : Nat)
    (σc σu : List EthHash) (n : Nat)
    (hn : n = min maxBatch (limit - σc.length))
    (HBf : ∀ h ∈ σu.take n, blockFor h = some (blkOf h))
    (HBh : ∀ h ∈ σu.take n, (blkOf h).headerHash = h)
    (hbatch : 1 ≤ maxBatch) (hcap : σc.length ≤ limit)
    (hlim : 1 ≤ limit) (hne : σu ≠ []) :
    roundStep blockFor maxBatch ttl maxAtt takeFlag now
      ⟨⟨cachedEntries blkOf σc ++ unseenEntries σu, limit, anc, p, past⟩,
       acc, att⟩
      = if n = 0 then
          match validateChain anc p (σc.map blkOf) with
          | Except.error e => Except.error e
          | Except.ok p2 =>
            Except.ok ⟨⟨unseenEntries σu, limit, anc, p2, past ++ σc⟩,
              acc ++ σc.map blkOf, 0⟩
        else if takeFlag then
          match validateChain anc p ((σc ++ σu.take n).map blkOf) with
          | Except.error e => Except.error e
          | Except.ok p2 =>
            Except.ok ⟨⟨unseenEntries (σu.drop n), limit, anc, p2,
                past ++ (σc ++ σu.take n)⟩,
              acc ++ (σc ++ σu.take n).map blkOf, 0⟩
        else
          Except.ok ⟨⟨cachedEntries blkOf (σc ++ σu.take n) ++
              unseenEntries (σu.drop n), limit, anc, p, past⟩,
            acc, 0⟩ := by
  have hfm : (σu.take n).filterMap blockFor = (σu.take n).map blkOf :=
    filterMap_eq_map_on blockFor blkOf (σu.take n) HBf
  have hhh : ∀ h ∈ σu.take n, (blkOf h).headerHash = h := HBh
  unfold roundStep roundStepCore
  simp only []
  rw [expire_no_pend _ ttl now (NF_no_pend blkOf σc σu),
    requestBlocks_NF blkOf σc σu limit anc p past now maxBatch n hn]
  simp only []
  unfold BlockQueue.deliver
  simp only []
  rw [hfm, deliverAll_fill blkOf now (σu.take n) (cachedEntries blkOf σc)
    (σu.drop n) (fun e he => by
      obtain ⟨h, _, rfl⟩ := List.mem_map.mp he
      rfl)
    hhh]
  simp only []
  by_cases h0 : n = 0
  · subst h0
    rw [if_pos rfl]
    have hmin := Nat.min_eq_zero_iff.mp hn.symm
    have hσc : σc.length = limit := by
      rcases hmin with h | h <;> omega
    simp only [List.take_zero, List.drop_zero, pendingEntries_nil,
      cachedEntries_nil, List.map_nil, List.nil_append, List.isEmpty_nil,
      Bool.or_true]
    rw [if_pos trivial, takeAssembled_NF]
    cases hv : validateChain anc p (σc.map blkOf) with
    | error e => simp only []
    | ok p2 =>
      simp only [List.length_nil, Nat.zero_add, List.length_map]
      have hne2 : ¬ σc.length = 0 := by omega
      rw [if_neg hne2]
  · rw [if_neg h0]
    have htk : (σu.take n).length = min n σu.length := List.length_take n σu
    have htkpos : (σu.take n).length ≠ 0 := by
      rw [htk]
      have : σu.length ≠ 0 := fun hc => hne (List.eq_nil_of_length_eq_zero hc)
      omega
    have hemp : (σu.take n).isEmpty = false := by
      cases hq : σu.take n with
      | nil => rw [hq] at htkpos; simp at htkpos
      | cons a l => rfl
    rw [hemp, Bool.or_false]
    cases takeFlag with
    | false =>
      simp only [Bool.false_eq_true, if_false]
      rw [if_neg htkpos]
      rw [show cachedEntries blkOf σc ++
          (cachedEntries blkOf (σu.take n) ++ unseenEntries (σu.drop n))
          = cachedEntries blkOf (σc ++ σu.take n) ++
              unseenEntries (σu.drop n) by
        rw [cachedEntries_append, List.append_assoc]]
    | true =>
      simp only [if_true]
      rw [show cachedEntries blkOf σc ++
          (cachedEntries blkOf (σu.take n) ++ unseenEntries (σu.drop n))
          = cachedEntries blkOf (σc ++ σu.take n) ++
              unseenEntries (σu.drop n) by
        rw [cachedEntries_append, List.append_assoc]]
      rw [takeAssembled_NF]
      cases hv : validateChain anc p ((σc ++ σu.take n).map blkOf) with
      | error e => simp only []
      | ok p2 =>
        simp only []
        rw [if_neg (by
          intro hc
          omega)]

/-- The round loop on a normal-form state whose every unseen hash is
suppliable: the outcome is exactly chain validation of the remaining
blocks, independently of the drain schedule, the clock, the TTL and the
attempt bound. -/
theorem syncRoundAux_NF (blockFor : EthHash → Option EthBlock)
    (blkOf : EthHash → EthBlock) (maxBatch ttl maxAtt limit : Nat)
    (anc : EthHash) (hbatch : 1 ≤ maxBatch) (hlim : 1 ≤ limit) :
    ∀ (fuel : Nat) (σc σu : List EthHash) (p : EthHash)
      (past : List EthHash) (acc : List EthBlock) (att : Nat)
      (sched : List Bool) (now : Nat),
    (∀ h ∈ σu, blockFor h = some (blkOf h)) →
    (∀ h ∈ σu, (blkOf h).headerHash = h) →
    σc.length ≤ limit →
    2 * σu.length + σc.length ≤ fuel →
    syncRoundAux blockFor maxBatch ttl maxAtt fuel sched now
      ⟨⟨cachedEntries blkOf σc ++ unseenEntries σu, limit, anc, p, past⟩,
       acc, att⟩
      = some (match validateChain anc p (σc.map blkOf ++ σu.map blkOf) with
          | Except.ok _ =>
            Except.ok (acc ++ (σc.map blkOf ++ σu.map blkOf))
          | Except.error e => Except.error e) := by
  intro fuel
  induction fuel with
  | zero =>
    intro σc σu p past acc att sched now HBf HBh hcap hfuel
    have hσu : σu = [] := List.eq_nil_of_length_eq_zero (by omega)
    have hσc : σc = [] := List.eq_nil_of_length_eq_zero (by omega)
    subst hσu
    subst hσc
    rw [syncRoundAux_zero]
    simp only []
    rw [NF_outstanding]
    simp only [List.length_nil]
    rw [if_pos trivial, finishRound_NF]
    simp [validateChain_nil]
  | succ f ih =>
    intro σc σu p past acc att sched now HBf HBh hcap hfuel
    by_cases hσu : σu = []
    · subst hσu
      rw [syncRoundAux_succ]
      simp only []
      rw [NF_outstanding]
      simp only [List.length_nil]
      rw [if_pos trivial, finishRound_NF]
      cases hv : validateChain anc p (σc.map blkOf) with
      | error e => simp [hv]
      | ok p2 => simp [hv]
    · rw [syncRoundAux_succ]
      simp only []
      rw [NF_outstanding]
      have hlen : ¬ σu.length = 0 :=
        fun hc => hσu (List.eq_nil_of_length_eq_zero hc)
      rw [if_neg hlen]
      rw [roundStep_NF blockFor blkOf maxBatch ttl maxAtt
        (sched.headD false) now limit anc p past acc att σc σu
        (min maxBatch (limit - σc.length)) rfl
        (fun h hx => HBf h (List.mem_of_mem_take hx))
        (fun h hx => HBh h (List.mem_of_mem_take hx)) hbatch hcap hlim
        hσu]
      by_cases h0 : min maxBatch (limit - σc.length) = 0
      · rw [if_pos h0]
        have hmin := Nat.min_eq_zero_iff.mp h0
        have hσc : σc.length = limit := by
          rcases hmin with h | h <;> omega
        cases hv : validateChain anc p (σc.map blkOf) with
        | error e =>
          simp only []
          rw [validateChain_append anc (σc.map blkOf) (σu.map blkOf) p, hv]
        | ok p2 =>
          simp only []
          rw [show (unseenEntries σu : List (EthHash × HState))
              = cachedEntries blkOf [] ++ unseenEntries σu from rfl]
          rw [ih [] σu p2 (past ++ σc) (acc ++ σc.map blkOf) 0 sched.tail
            (now + 1) HBf HBh (by simp) (by simp; omega)]
          rw [validateChain_append anc (σc.map blkOf) (σu.map blkOf) p, hv]
          simp only [List.map_nil, List.nil_append]
          cases hv2 : validateChain anc p2 (σu.map blkOf) <;>
            simp [List.append_assoc]
      · rw [if_neg h0]
        have hk : (σu.take (min maxBatch (limit - σc.length))).length
            = min (min maxBatch (limit - σc.length)) σu.length :=
          List.length_take _ _
        have hkle : min maxBatch (limit - σc.length)
            ≤ limit - σc.length := Nat.min_le_right _ _
        have hmaps : (σc ++ σu.take (min maxBatch (limit - σc.length))).map
              blkOf ++ (σu.drop (min maxBatch (limit - σc.length))).map
              blkOf
            = σc.map blkOf ++ σu.map blkOf := by
          rw [List.map_append, List.append_assoc, ← List.map_append,
            List.take_append_drop]
        cases htf : sched.headD false with
        | true =>
          rw [if_pos rfl]
          cases hv : validateChain anc p
              ((σc ++ σu.take (min maxBatch (limit - σc.length))).map
                blkOf) with
          | error e =>
            simp only []
            rw [← hmaps,
              validateChain_append anc
                ((σc ++ σu.take (min maxBatch (limit - σc.length))).map
                  blkOf) _ p, hv]
          | ok p2 =>
            simp only []
            rw [show (unseenEntries
                  (σu.drop (min maxBatch (limit - σc.length)))
                : List (EthHash × HState))
                = cachedEntries blkOf [] ++ unseenEntries
                    (σu.drop (min maxBatch (limit - σc.length)))
              from rfl]
            rw [ih []
              (σu.drop (min maxBatch (limit - σc.length))) p2
              (past ++ (σc ++ σu.take (min maxBatch (limit - σc.length))))
              (acc ++ (σc ++
                σu.take (min maxBatch (limit - σc.length))).map blkOf) 0
              sched.tail (now + 1)
              (fun h hx => HBf h (List.mem_of_mem_drop hx))
              (fun h hx => HBh h (List.mem_of_mem_drop hx))
              (by simp)
              (by
                simp only [List.length_nil, List.length_drop]
                omega)]
            rw [← hmaps,
              validateChain_append anc
                ((σc ++ σu.take (min maxBatch (limit - σc.length))).map
                  blkOf) _ p, hv]
            simp only [List.map_nil, List.nil_append]
            cases hv2 : validateChain anc p2
                ((σu.drop (min maxBatch (limit - σc.length))).map
                  blkOf) <;> simp [List.append_assoc]
        | false =>
          rw [if_neg (by decide)]
          simp only []
          rw [ih (σc ++ σu.take (min maxBatch (limit - σc.length)))
            (σu.drop (min maxBatch (limit - σc.length))) p past acc 0
            sched.tail (now + 1)
            (fun h hx => HBf h (List.mem_of_mem_drop hx))
            (fun h hx => HBh h (List.mem_of_mem_drop hx))
            (by
              simp only [List.length_append]
              omega)
            (by
              simp only [List.length_append, List.length_drop]
              have hlp : ¬ σu.length = 0 :=
                fun hc => hσu (List.eq_nil_of_length_eq_zero hc)
              omega)]
          rw [hmaps]

/-- Inserting fresh, distinct hashes appends them unseen, in order. -/
theorem insertHashes_fresh : ∀ (σ : List EthHash) (q : BlockQueue),
    σ.Nodup → (∀ h ∈ σ, q.knows h = false) →
    (q.insertHashes σ).1 = { q with entries := q.entries ++ unseenEntries σ } := by
  intro σ
  induction σ with
  | nil =>
    intro q _ _
    rw [insertHashes_nil]
    simp [unseenEntries]
  | cons h t ih =>
    intro q hnd hfresh
    rw [insertHashes_cons]
    have hk : q.knows h = false := hfresh h (List.mem_cons_self _ _)
    rw [if_neg (by rw [hk]; exact Bool.false_ne_true)]
    simp only []
    rw [ih { q with entries := q.entries ++ [(h, HState.unseen)] }
      (List.nodup_cons.mp hnd).2 ?_]
    · simp [unseenEntries, List.append_assoc]
    · intro x hx
      have hxh : x ≠ h := by
        intro hc
        subst hc
        exact (List.nodup_cons.mp hnd).1 hx
      have hkx : q.knows x = false := hfresh x (List.mem_cons_of_mem _ hx)
      unfold BlockQueue.knows at hkx ⊢
      rw [Bool.or_eq_false_iff] at hkx
      rw [Bool.or_eq_false_iff]
      refine ⟨?_, hkx.2⟩
      simp only [List.map_append]
      rw [List.contains_eq_any_beq] at hkx ⊢
      simp only [List.any_append, Bool.or_eq_false_iff]
      refine ⟨hkx.1, ?_⟩
      simp [hxh]

/-- A fresh round queue over distinct hashes is in normal form: every
hash unseen, in assembly order. -/
theorem startRound_NF (limit : Nat) (anc : EthHash) (σ : List EthHash)
    (hnd : σ.Nodup) :
    ((newQueue limit anc).insertHashes σ).1
      = ⟨unseenEntries σ, limit, anc, anc, []⟩ := by
  rw [insertHashes_fresh σ (newQueue limit anc) hnd ?_]
  · rfl
  · intro h hx
    rfl

/-- The outcome of a whole block-fetch round over suppliable hashes is
chain validation of the supplied blocks, for every schedule. -/
theorem syncBlocks_run (blockFor : EthHash → Option EthBlock)
    (blkOf : EthHash → EthBlock) (limit maxBatch ttl maxAtt : Nat)
    (anc : EthHash) (σ : List EthHash) (sched : List Bool) (fuel : Nat)
    (hnd : σ.Nodup)
    (HBf : ∀ h ∈ σ, blockFor h = some (blkOf h))
    (HBh : ∀ h ∈ σ, (blkOf h).headerHash = h)
    (hbatch : 1 ≤ maxBatch) (hlim : 1 ≤ limit)
    (hfuel : 2 * σ.length ≤ fuel) :
    syncBlocks blockFor limit maxBatch ttl maxAtt anc σ sched fuel
      = some (match validateChain anc anc (σ.map blkOf) with
          | Except.ok _ => Except.ok (σ.map blkOf)
          | Except.error e => Except.error e) := by
  unfold syncBlocks
  rw [startRound_NF limit anc σ hnd]
  rw [show (unseenEntries σ : List (EthHash × HState))
      = cachedEntries blkOf [] ++ unseenEntries σ from rfl]
  rw [syncRoundAux_NF blockFor blkOf maxBatch ttl maxAtt limit anc hbatch
    hlim fuel [] σ anc [] [] 0 sched 0 HBf HBh (by simp) (by simp; omega)]
  simp only [List.map_nil, List.nil_append]

/-- A zipped lookup over listed keys always hits, when enough values are
supplied. -/
theorem lookup_zip_hits : ∀ (t l2 : List EthHash) (x : EthHash),
    x ∈ t → t.length ≤ l2.length →
    ∃ v, List.lookup x (t.zip l2) = some v := by
  intro t
  induction t with
  | nil => intro l2 x hx; cases hx
  | cons a t ih =>
    intro l2 x hx hlen
    cases l2 with
    | nil => simp at hlen
    | cons b l2 =>
      rw [List.zip_cons_cons, List.lookup]
      cases hab : x == a with
      | true => exact ⟨b, rfl⟩
      | false =>
        have hxa : x ≠ a := by
          intro hc
          rw [hc] at hab
          simp at hab
        have hxt : x ∈ t := by
          rcases List.mem_cons.mp hx with hc | hc
          · exact absurd hc hxa
          · exact hc
        exact ih l2 x hxt (by simpa using Nat.le_of_succ_le_succ hlen)

/-- Unfolding of the chain parent at the chain head. -/
theorem chainParent_head (anc h : EthHash) (t : List EthHash) :
    chainParent anc (h :: t) h = anc := by
  unfold chainParent
  rw [List.zip_cons_cons, List.lookup]
  simp

/-- Unfolding of the chain parent past the chain head. -/
theorem chainParent_cons (anc h : EthHash) (t : List EthHash)
    (x : EthHash) (hx : x ≠ h) (hxt : x ∈ t) :
    chainParent anc (h :: t) x = chainParent h t x := by
  unfold chainParent
  rw [List.zip_cons_cons, List.lookup]
  have hxh : (x == h) = false := by
    rw [beq_eq_false_iff_ne]
    exact hx
  rw [hxh]
  obtain ⟨v, hv⟩ := lookup_zip_hits t (h :: t) x hxt (by simp)
  rw [hv]
  simp

/-- The canonical blocks of a distinct chain, spelled positionally. -/
theorem map_chainBlk_eq_zip : ∀ (hs : List EthHash) (anc : EthHash),
    hs.Nodup →
    hs.map (chainBlk anc hs)
      = List.zipWith
          (fun h par =>
            ({ number := 0, headerHash := h, parentHeaderHash := par }
              : EthBlock))
          hs (anc :: hs) := by
  intro hs
  induction hs with
  | nil => intro anc _; rfl
  | cons h t ih =>
    intro anc hnd
    rw [List.map_cons, List.zipWith_cons_cons]
    have hhead : chainBlk anc (h :: t) h
        = { number := 0, headerHash := h, parentHeaderHash := anc } := by
      unfold chainBlk
      rw [chainParent_head]
    have htail : t.map (chainBlk anc (h :: t)) = t.map (chainBlk h t) := by
      apply List.map_congr_left
      intro x hx
      unfold chainBlk
      rw [chainParent_cons anc h t x
        (fun hc => (List.nodup_cons.mp hnd).1 (hc ▸ hx)) hx]
    rw [hhead, htail, ih h (List.nodup_cons.mp hnd).2]

/-- Chain validation accepts the positionally spelled canonical blocks. -/
theorem validateChain_zip (anc : EthHash) : ∀ (t : List EthHash)
    (p : EthHash), ∃ q,
    validateChain anc p
        (List.zipWith
          (fun h par =>
            ({ number := 0, headerHash := h, parentHeaderHash := par }
              : EthBlock))
          t (p :: t))
      = Except.ok q := by
  intro t
  induction t with
  | nil => intro p; exact ⟨p, rfl⟩
  | cons h t ih =>
    intro p
    rw [List.zipWith_cons_cons, validateChain_cons]
    rw [if_pos (Or.inr rfl)]
    exact ih h

/-- Chain validation accepts every valid chain's canonical blocks. -/
theorem validateChain_chainBlocks (anc : EthHash) (hs : List EthHash)
    (hnd : hs.Nodup) : ∃ q,
    validateChain anc anc (hs.map (chainBlk anc hs)) = Except.ok q := by
  rw [map_chainBlk_eq_zip hs anc hnd]
  exact validateChain_zip anc hs anc

/-- The canonical chain supply delivers a block for every chain hash. -/
theorem chainSupply_total (anc : EthHash) (hs : List EthHash) :
    ∀ h ∈ hs, chainSupply anc hs h = some (chainBlk anc hs h) := by
  intro h hm
  unfold chainSupply
  rw [if_pos (List.elem_iff.mpr hm)]

/-- The hashes of the canonical chain blocks, in order. -/
theorem chainBlocks_hashes (anc : EthHash) (hs : List EthHash) :
    (chainBlocks anc hs).map (fun b => b.headerHash) = hs := by
  unfold chainBlocks
  rw [List.map_map]
  have hcongr : ∀ x ∈ hs,
      ((fun b => b.headerHash) ∘ chainBlk anc hs) x = id x :=
    fun x _ => rfl
  rw [List.map_congr_left hcongr, List.map_id]

/-! ## Claim C2: valid chains synchronise completely -/

/-- C2: for every valid hash chain (distinct hashes, each block's parent
the previous block, rooted at the local ancestor), a block-fetch round
over any cache limit of at least one slot, any batch size of at least
one, any TTL and attempt bound, and any concurrent drain schedule, yields
exactly the chain's blocks, oldest to newest, with correct parent
linkage; the surfaced hashes are exactly the chain's hashes in order (so
no duplicates and no gaps), even when the chain exceeds the cache
capacity.  (The hash-walk bound of `Synchronise` is the separate
`fetchHashesLoop` phase; this theorem covers the block phase it feeds.) -/
theorem sync_valid_chain_complete (anc : EthHash) (hs : List EthHash)
    (limit maxBatch ttl maxAtt fuel : Nat) (sched : List Bool)
    (hnd : hs.Nodup) (hbatch : 1 ≤ maxBatch) (hlim : 1 ≤ limit)
    (hfuel : 2 * hs.length ≤ fuel) :
    syncBlocks (chainSupply anc hs) limit maxBatch ttl maxAtt anc hs
        sched fuel
      = some (Except.ok (chainBlocks anc hs)) ∧
    (chainBlocks anc hs).length = hs.length ∧
    (chainBlocks anc hs).map (fun b => b.headerHash) = hs := by
  obtain ⟨q, hq⟩ := validateChain_chainBlocks anc hs hnd
  refine ⟨?_, by simp [chainBlocks], chainBlocks_hashes anc hs⟩
  rw [syncBlocks_run (chainSupply anc hs) (chainBlk anc hs) limit maxBatch
    ttl maxAtt anc hs sched fuel hnd (chainSupply_total anc hs)
    (fun h _ => rfl) hbatch hlim hfuel]
  rw [show hs.map (chainBlk anc hs) = chainBlocks anc hs from rfl,
    show validateChain anc anc (chainBlocks anc hs) = Except.ok q from hq]

/-- Witness for C2: a three-block chain rooted at `[1]`, fetched through a
single-slot cache with concurrent drains, comes back complete and in
order. -/
theorem sync_valid_chain_complete_witness :
    syncBlocks (chainSupply [1] [[2], [3], [4]]) 1 2 0 2 [1]
        [[2], [3], [4]] [true, false] 8
      = some (Except.ok (chainBlocks [1] [[2], [3], [4]])) ∧
    (chainBlocks [1] [[2], [3], [4]]).length = [[2], [3], [4]].length ∧
    (chainBlocks [1] [[2], [3], [4]]).map (fun b => b.headerHash)
      = [[2], [3], [4]] :=
  sync_valid_chain_complete [1] [[2], [3], [4]] 1 2 0 2 8 [true, false]
    (by decide) (by decide) (by decide) (by decide)

/-! ## Misordered delivery: the reordered-hash attack -/

/-- Two different lists of equal length split at a first difference. -/
theorem exists_first_diff : ∀ (xs ys : List EthHash), xs ≠ ys →
    xs.length = ys.length →
    ∃ a c u d v, xs = a ++ c :: u ∧ ys = a ++ d :: v ∧ c ≠ d := by
  intro xs
  induction xs with
  | nil =>
    intro ys hne hlen
    cases ys with
    | nil => exact absurd rfl hne
    | cons y ys2 => simp at hlen
  | cons x xs ih =>
    intro ys hne hlen
    cases ys with
    | nil => simp at hlen
    | cons y ys2 =>
      by_cases hxy : x = y
      · subst hxy
        have hne2 : xs ≠ ys2 := fun hc => hne (by rw [hc])
        obtain ⟨a, c, u, d, v, h1, h2, h3⟩ :=
          ih ys2 hne2 (by simpa using hlen)
        exact ⟨x :: a, c, u, d, v, by simp [h1], by simp [h2], h3⟩
      · exact ⟨[], x, xs, y, ys2, rfl, rfl, hxy⟩

/-- Chain validation of the positional blocks lands on the last hash. -/
theorem validateChain_zip_last (anc : EthHash) : ∀ (t : List EthHash)
    (p : EthHash),
    validateChain anc p
        (List.zipWith
          (fun h par =>
            ({ number := 0, headerHash := h, parentHeaderHash := par }
              : EthBlock))
          t (p :: t))
      = Except.ok (t.getLastD p) := by
  intro t
  induction t with
  | nil => intro p; rfl
  | cons h t ih =>
    intro p
    rw [List.zipWith_cons_cons, validateChain_cons, if_pos (Or.inr rfl),
      List.getLastD_cons]
    exact ih h

/-- The canonical blocks of a chain prefix, spelled positionally. -/
theorem map_chainBlk_prefix : ∀ (a rest : List EthHash) (anc : EthHash),
    (a ++ rest).Nodup →
    a.map (chainBlk anc (a ++ rest))
      = List.zipWith
          (fun h par =>
            ({ number := 0, headerHash := h, parentHeaderHash := par }
              : EthBlock))
          a (anc :: a) := by
  intro a
  induction a with
  | nil => intro rest anc _; rfl
  | cons h t ih =>
    intro rest anc hnd
    rw [List.cons_append] at hnd
    rw [List.map_cons, List.zipWith_cons_cons, List.cons_append]
    have hhead : chainBlk anc (h :: (t ++ rest)) h
        = { number := 0, headerHash := h, parentHeaderHash := anc } := by
      unfold chainBlk
      rw [chainParent_head]
    have htail : t.map (chainBlk anc (h :: (t ++ rest)))
        = t.map (chainBlk h (t ++ rest)) := by
      apply List.map_congr_left
      intro x hx
      unfold chainBlk
      rw [chainParent_cons anc h (t ++ rest) x
        (fun hc => (List.nodup_cons.mp hnd).1 (by simp [hc ▸ hx]))
        (by simp [hx])]
    rw [hhead, htail, ih rest h (List.nodup_cons.mp hnd).2]

/-- The chain parent of a listed hash is the seed or a listed hash. -/
theorem chainParent_mem : ∀ (v : List EthHash) (p c : EthHash),
    c ∈ v → chainParent p v c ∈ p :: v := by
  intro v
  induction v with
  | nil => intro p c hc; cases hc
  | cons h v ih =>
    intro p c hc
    by_cases hch : c = h
    · subst hch
      rw [chainParent_head]
      exact List.mem_cons_self p _
    · have hcv : c ∈ v := by
        rcases List.mem_cons.mp hc with h1 | h1
        · exact absurd h1 hch
        · exact h1
      rw [chainParent_cons p h v c hch hcv]
      exact List.mem_cons_of_mem p (ih h c hcv)

/-- Past a common prefix, the chain parent of a strictly later hash stays
in the suffix region. -/
theorem chainParent_suffix_mem : ∀ (a : List EthHash) (anc d : EthHash)
    (v : List EthHash) (c : EthHash),
    (a ++ d :: v).Nodup → c ∈ v →
    chainParent anc (a ++ d :: v) c ∈ d :: v := by
  intro a
  induction a with
  | nil =>
    intro anc d v c hnd hc
    rw [List.nil_append] at hnd ⊢
    have hcd : c ≠ d := by
      intro hc2
      exact (List.nodup_cons.mp hnd).1 (hc2 ▸ hc)
    rw [chainParent_cons anc d v c hcd hc]
    exact chainParent_mem v d c hc
  | cons x a ih =>
    intro anc d v c hnd hc
    rw [List.cons_append] at hnd ⊢
    have hcx : c ≠ x := by
      intro hc2
      subst hc2
      exact (List.nodup_cons.mp hnd).1 (by simp [hc])
    have hcm : c ∈ a ++ d :: v := by simp [hc]
    rw [chainParent_cons anc x (a ++ d :: v) c hcx hcm]
    exact ih x d v c (List.nodup_cons.mp hnd).2 hc

/-- A defaulted last element of a non-empty list is listed. -/
theorem getLastD_mem : ∀ (a : List EthHash) (x : EthHash), a ≠ [] →
    a.getLastD x ∈ a := by
  intro a
  induction a with
  | nil => intro x h; exact absurd rfl h
  | cons y ys ih =>
    intro x _
    rw [List.getLastD_cons]
    by_cases hys : ys = []
    · subst hys
      simp [List.getLastD]
    · exact List.mem_cons_of_mem y (ih y hys)

/-- Delivering a valid chain's hashes in any order other than the chain
order fails chain validation with the invalid-chain error. -/
theorem validateChain_misorder (anc : EthHash) (hs σ : List EthHash)
    (hperm : σ.Perm hs) (hne : σ ≠ hs) (hnd : hs.Nodup)
    (hanc : anc ∉ hs) :
    validateChain anc anc (σ.map (chainBlk anc hs))
      = Except.error DLErr.invalidChain := by
  have hσnd : σ.Nodup := hperm.nodup_iff.mpr hnd
  obtain ⟨a, c, u, d, v, hσeq, hhseq, hcd⟩ :=
    exists_first_diff σ hs hne hperm.length_eq
  subst hσeq
  subst hhseq
  rw [List.map_append, validateChain_append,
    map_chainBlk_prefix a (d :: v) anc hnd, validateChain_zip_last]
  have hcv : c ∈ v := by
    have hcσ : c ∈ a ++ c :: u := by simp
    have hchs : c ∈ a ++ d :: v := hperm.subset hcσ
    have hca : c ∉ a := by
      have hd := (List.nodup_append.mp hσnd).2.2
      intro hmem
      exact hd hmem (List.mem_cons_self c u)
    rcases List.mem_append.mp hchs with h1 | h1
    · exact absurd h1 hca
    · rcases List.mem_cons.mp h1 with h2 | h2
      · exact absurd h2 hcd
      · exact h2
  have hpar : chainParent anc (a ++ d :: v) c ∈ d :: v :=
    chainParent_suffix_mem a anc d v c hnd hcv
  have hpar_ne_anc : chainParent anc (a ++ d :: v) c ≠ anc := by
    intro hc2
    apply hanc
    rw [← hc2]
    exact List.mem_append.mpr (Or.inr hpar)
  have hpar_ne_last : chainParent anc (a ++ d :: v) c ≠ a.getLastD anc := by
    by_cases ha : a = []
    · subst ha
      simpa [List.getLastD] using hpar_ne_anc
    · intro hc2
      have hlast : a.getLastD anc ∈ a := getLastD_mem a anc ha
      have hdisj := (List.nodup_append.mp hnd).2.2
      apply hdisj ?_ hpar
      rw [hc2]
      exact hlast
  have hcond : ¬((chainBlk anc (a ++ d :: v) c).parentHeaderHash = anc ∨
      (chainBlk anc (a ++ d :: v) c).parentHeaderHash
        = a.getLastD anc) := by
    intro hor
    rcases hor with h1 | h1
    · exact hpar_ne_anc h1
    · exact hpar_ne_last h1
  simp only []
  rw [List.map_cons, validateChain_cons, if_neg hcond]

/-! ## Claim C5: reordered hashes fail, a later valid round succeeds -/

/-- C5: delivering a valid chain's hashes in any order other than the
chain order makes the round fail with the invalid-chain error on drain;
a subsequent fresh round over the same chain in correct order (as from
another peer - the queue's bookkeeping is keyed by hash, not by peer)
succeeds completely.  The earlier failure leaves no trace: each round
works on its own queue, exactly as the spec's per-round lifecycle
prescribes. -/
theorem sync_reordered_fails_then_recovers (anc : EthHash)
    (hs σ : List EthHash) (limit maxBatch ttl maxAtt fuel : Nat)
    (sched sched2 : List Bool)
    (hperm : σ.Perm hs) (hne : σ ≠ hs) (hnd : hs.Nodup) (hanc : anc ∉ hs)
    (hbatch : 1 ≤ maxBatch) (hlim : 1 ≤ limit)
    (hfuel : 2 * hs.length ≤ fuel) :
    syncBlocks (chainSupply anc hs) limit maxBatch ttl maxAtt anc σ sched
        fuel
      = some (Except.error DLErr.invalidChain) ∧
    syncBlocks (chainSupply anc hs) limit maxBatch ttl maxAtt anc hs
        sched2 fuel
      = some (Except.ok (chainBlocks anc hs)) := by
  constructor
  · rw [syncBlocks_run (chainSupply anc hs) (chainBlk anc hs) limit
      maxBatch ttl maxAtt anc σ sched fuel (hperm.nodup_iff.mpr hnd)
      (fun h hx => chainSupply_total anc hs h (hperm.subset hx))
      (fun h _ => rfl) hbatch hlim (by rw [hperm.length_eq]; exact hfuel)]
    rw [validateChain_misorder anc hs σ hperm hne hnd hanc]
  · obtain ⟨q, hq⟩ := validateChain_chainBlocks anc hs hnd
    rw [syncBlocks_run (chainSupply anc hs) (chainBlk anc hs) limit
      maxBatch ttl maxAtt anc hs sched2 fuel hnd
      (chainSupply_total anc hs) (fun h _ => rfl) hbatch hlim hfuel]
    rw [show hs.map (chainBlk anc hs) = chainBlocks anc hs from rfl,
      show validateChain anc anc (chainBlocks anc hs) = Except.ok q
        from hq]

/-- Witness for C5: the two-block chain delivered tail-first fails with
the invalid-chain error; redelivered in order it completes. -/
theorem sync_reordered_fails_then_recovers_witness :
    syncBlocks (chainSupply [1] [[2], [3]]) 1 2 0 2 [1] [[3], [2]] [] 6
      = some (Except.error DLErr.invalidChain) ∧
    syncBlocks (chainSupply [1] [[2], [3]]) 1 2 0 2 [1] [[2], [3]] [true] 6
      = some (Except.ok (chainBlocks [1] [[2], [3]])) :=
  sync_reordered_fails_then_recovers [1] [[2], [3]] [[3], [2]] 1 2 0 2 6
    [] [true] (by decide) (by decide) (by decide) (by decide) (by decide)
    (by decide) (by decide)

/-! ## The missing-body scenario: gap-state computation lemmas -/

/-- The TTL sweep walks straight past entries that are not pending. -/
theorem expireAll_skip (ttl now : Nat) :
    ∀ (pre rest : List (EthHash × HState)),
    (∀ e ∈ pre, e.2.isPend = false) →
    expireAll ttl now (pre ++ rest)
      = (pre ++ (expireAll ttl now rest).1, (expireAll ttl now rest).2) := by
  intro pre
  induction pre with
  | nil => intro rest _; simp
  | cons e pre ih =>
    intro rest hp
    obtain ⟨h, s⟩ := e
    cases s with
    | pending t =>
      have := hp (h, HState.pending t) (List.mem_cons_self _ _)
      simp at this
    | unseen =>
      rw [List.cons_append, expireAll_unseen,
        ih rest (fun e he => hp e (List.mem_cons_of_mem _ he))]
      simp
    | cached b =>
      rw [List.cons_append, expireAll_cached,
        ih rest (fun e he => hp e (List.mem_cons_of_mem _ he))]
      simp

/-- The request marker walks straight past entries that are not unseen. -/
theorem markPending_skip_nonunseen (now : Nat) :
    ∀ (pre : List (EthHash × HState)) (n : Nat)
      (rest : List (EthHash × HState)),
    (∀ e ∈ pre, e.2.isUnseen = false) →
    markPending now n (pre ++ rest)
      = (pre ++ (markPending now n rest).1, (markPending now n rest).2) := by
  intro pre
  induction pre with
  | nil => intro n rest _; simp
  | cons e pre ih =>
    intro n rest hp
    obtain ⟨h, s⟩ := e
    cases n with
    | zero => simp [markPending_zero_any]
    | succ n =>
      cases s with
      | unseen =>
        have := hp (h, HState.unseen) (List.mem_cons_self _ _)
        simp at this
      | pending t =>
        rw [List.cons_append, markPending_pending,
          ih (n + 1) rest (fun e he => hp e (List.mem_cons_of_mem _ he))]
        simp
      | cached b =>
        rw [List.cons_append, markPending_cached_eq,
          ih (n + 1) rest (fun e he => hp e (List.mem_cons_of_mem _ he))]
        simp

/-- Delivery resolution walks past entries that are not pending under the
block's own hash (generalised skip). -/
theorem deliverOne_skip2 (b : EthBlock) :
    ∀ (pre es : List (EthHash × HState)),
    (∀ e ∈ pre, e.2.isPend = true → e.1 ≠ b.headerHash) →
    deliverOne b (pre ++ es)
      = match deliverOne b es with
        | some es2 => some (pre ++ es2)
        | none => none := by
  intro pre
  induction pre with
  | nil =>
    intro es _
    cases hr : deliverOne b es <;> simp [hr]
  | cons e pre ih =>
    intro es hp
    obtain ⟨h, s⟩ := e
    cases s with
    | pending t =>
      have hne : h ≠ b.headerHash :=
        hp (h, HState.pending t) (List.mem_cons_self _ _) rfl
      rw [List.cons_append, deliverOne_pending, if_neg hne,
        ih es (fun e he => hp e (List.mem_cons_of_mem _ he))]
      cases hr : deliverOne b es <;> simp
    | unseen =>
      rw [List.cons_append, deliverOne_unseen,
        ih es (fun e he => hp e (List.mem_cons_of_mem _ he))]
      cases hr : deliverOne b es <;> simp
    | cached b2 =>
      rw [List.cons_append, deliverOne_cached,
        ih es (fun e he => hp e (List.mem_cons_of_mem _ he))]
      cases hr : deliverOne b es <;> simp

/-- Delivering the blocks of a freshly marked batch caches the batch in
place, with an arbitrary inert suffix and a front that is never pending
under the batch's hashes. -/
theorem deliverAll_fill_front (blkOf : EthHash → EthBlock) (now : Nat) :
    ∀ (hs : List EthHash) (pre suffix : List (EthHash × HState)),
    (∀ e ∈ pre, e.2.isPend = true → ∀ h2 ∈ hs, e.1 ≠ h2) →
    (∀ h2 ∈ hs, (blkOf h2).headerHash = h2) →
    deliverAll (hs.map blkOf) (pre ++ (pendingEntries now hs ++ suffix))
      = (pre ++ (cachedEntries blkOf hs ++ suffix), hs.length) := by
  intro hs
  induction hs with
  | nil =>
    intro pre suffix _ _
    simp [pendingEntries, cachedEntries, deliverAll]
  | cons h t ih =>
    intro pre suffix hpre hhh
    rw [List.map_cons, show pendingEntries now (h :: t)
        = (h, HState.pending now) :: pendingEntries now t from rfl,
      deliverAll_cons]
    have hone : deliverOne (blkOf h)
        (pre ++ ((h, HState.pending now) :: pendingEntries now t
          ++ suffix))
        = some (pre ++ ((h, HState.cached (blkOf h)) ::
            (pendingEntries now t ++ suffix))) := by
      rw [List.cons_append, deliverOne_skip2 (blkOf h) pre _
        (fun e he hpend => by
          rw [hhh h (List.mem_cons_self _ _)]
          exact hpre e he hpend h (List.mem_cons_self _ _)),
        deliverOne_pending, if_pos (hhh h (List.mem_cons_self _ _)).symm]
    simp only [hone]
    have harg : pre ++ ((h, HState.cached (blkOf h)) ::
          (pendingEntries now t ++ suffix))
        = (pre ++ [(h, HState.cached (blkOf h))]) ++
            (pendingEntries now t ++ suffix) := by
      simp
    rw [harg, ih (pre ++ [(h, HState.cached (blkOf h))]) suffix ?_ ?_]
    · have hce : cachedEntries blkOf (h :: t)
          = (h, HState.cached (blkOf h)) :: cachedEntries blkOf t := rfl
      rw [hce]
      simp
    · intro e he hpend h2 hh2
      rcases List.mem_append.mp he with h1 | h1
      · exact hpre e h1 hpend h2 (List.mem_cons_of_mem _ hh2)
      · simp at h1
        subst h1
        simp at hpend
    · intro x hx
      exact hhh x (List.mem_cons_of_mem _ hx)

/-- The drainable front stops at the gap entry. -/
theorem takeWhile_gap (blkOf : EthHash → EthBlock) (g : EthHash)
    (gs : HState) (rest : List (EthHash × HState))
    (hgs : gs.isCached = false) :
    ∀ σc : List EthHash,
    (cachedEntries blkOf σc ++ (g, gs) :: rest).takeWhile
        (fun e => e.2.isCached)
      = cachedEntries blkOf σc := by
  intro σc
  induction σc with
  | nil => simp [List.takeWhile_cons, hgs]
  | cons h t ih =>
    simp only [cachedEntries, List.map_cons, List.cons_append,
      List.takeWhile_cons, isCached_cached, if_true]
    rw [show (List.map (fun h => (h, HState.cached (blkOf h))) t
        : List (EthHash × HState)) = cachedEntries blkOf t from rfl, ih]

/-- Draining a gap-form queue validates and removes exactly the cached
front before the gap. -/
theorem takeAssembled_gap (blkOf : EthHash → EthBlock) (g : EthHash)
    (gs : HState) (σc : List EthHash)
    (rest : List (EthHash × HState)) (limit : Nat) (anc p : EthHash)
    (past : List EthHash) (hgs : gs.isCached = false) :
    (⟨cachedEntries blkOf σc ++ (g, gs) :: rest, limit, anc, p, past⟩
      : BlockQueue).takeAssembled
      = match validateChain anc p (σc.map blkOf) with
        | Except.error e =>
          (⟨cachedEntries blkOf σc ++ (g, gs) :: rest, limit, anc, p,
            past⟩, Except.error e)
        | Except.ok p2 =>
          (⟨(g, gs) :: rest, limit, anc, p2, past ++ σc⟩,
           Except.ok (σc.map blkOf)) := by
  unfold BlockQueue.takeAssembled
  simp only [takeWhile_gap blkOf g gs rest hgs, filterMap_cachedEntries,
    map_fst_cachedEntries, cachedEntries_length]
  cases hv : validateChain anc p (σc.map blkOf) with
  | error e => rfl
  | ok p2 =>
    simp only []
    have hd : List.drop σc.length
        (cachedEntries blkOf σc ++ (g, gs) :: rest) = (g, gs) :: rest := by
      rw [← cachedEntries_length blkOf σc]
      exact List.drop_left _ _
    rw [hd]

/-- The request marker over an unseen front followed by anything: within
budget it stops inside the front, beyond budget it marks the whole front
and continues with the remaining budget. -/
theorem markPending_unseen_front (now : Nat) :
    ∀ (σu : List EthHash) (n : Nat) (rest : List (EthHash × HState)),
    markPending now n (unseenEntries σu ++ rest)
      = if n ≤ σu.length then
          (pendingEntries now (σu.take n) ++
            (unseenEntries (σu.drop n) ++ rest), σu.take n)
        else
          (pendingEntries now σu ++
            (markPending now (n - σu.length) rest).1,
           σu ++ (markPending now (n - σu.length) rest).2) := by
  intro σu
  induction σu with
  | nil =>
    intro n rest
    cases n with
    | zero => simp [markPending_zero_any, pendingEntries, unseenEntries]
    | succ n => simp [pendingEntries, unseenEntries]
  | cons h t ih =>
    intro n rest
    cases n with
    | zero =>
      simp [markPending_zero_any, pendingEntries, unseenEntries]
    | succ n =>
      rw [show unseenEntries (h :: t) ++ rest
          = (h, HState.unseen) :: (unseenEntries t ++ rest) from rfl,
        markPending_unseen, ih n rest]
      by_cases hc : n ≤ t.length
      · rw [if_pos hc, if_pos (by simp; omega)]
        simp [pendingEntries, unseenEntries]
      · rw [if_neg hc, if_neg (by simp; omega)]
        simp only [List.length_cons]
        rw [show n + 1 - (t.length + 1) = n - t.length by omega]
        simp [pendingEntries]

/-- Resolving an appended batch resolves the two parts in sequence. -/
theorem deliverAll_append :
    ∀ (as bs : List EthBlock) (es : List (EthHash × HState)),
    deliverAll (as ++ bs) es
      = ((deliverAll bs (deliverAll as es).1).1,
         (deliverAll as es).2 + (deliverAll bs (deliverAll as es).1).2) := by
  intro as
  induction as with
  | nil => intro bs es; simp [deliverAll]
  | cons a as ih =>
    intro bs es
    rw [List.cons_append, deliverAll_cons, deliverAll_cons]
    cases hr : deliverOne a es with
    | some es2 =>
      simp only [hr]
      rw [ih bs es2]
      simp only [Prod.mk.injEq]
      exact ⟨trivial, by omega⟩
    | none =>
      simp only [hr]
      rw [ih bs es]

/-- A successful validation of an appended sequence decomposes into a
successful validation of each part, the second taking over from the
first's result. -/
theorem validateChain_split (anc p : EthHash) (xs ys : List EthBlock)
    (e : EthHash)
    (h : validateChain anc p (xs ++ ys) = Except.ok e) :
    ∃ p2, validateChain anc p xs = Except.ok p2 ∧
      validateChain anc p2 ys = Except.ok e := by
  rw [validateChain_append] at h
  cases hx : validateChain anc p xs with
  | error e2 => rw [hx] at h; simp at h
  | ok p2 =>
    rw [hx] at h
    exact ⟨p2, rfl, h⟩

/-- The drainable front of a cached prefix stops at the first entry of the
remainder whenever that entry is not cached. -/
theorem takeWhile_cachedFront (blkOf : EthHash → EthBlock) :
    ∀ (σc : List EthHash) (rest : List (EthHash × HState)),
    (∀ e ∈ rest.take 1, e.2.isCached = false) →
    (cachedEntries blkOf σc ++ rest).takeWhile (fun e => e.2.isCached)
      = cachedEntries blkOf σc := by
  intro σc
  induction σc with
  | nil =>
    intro rest hr
    cases rest with
    | nil => rfl
    | cons e r =>
      simp only [cachedEntries_nil, List.nil_append, List.takeWhile_cons]
      rw [hr e (by simp)]
      rfl
  | cons h tl ih =>
    intro rest hr
    simp only [cachedEntries, List.map_cons, List.cons_append,
      List.takeWhile_cons, isCached_cached, if_true]
    rw [show (List.map (fun h => (h, HState.cached (blkOf h))) tl
        : List (EthHash × HState)) = cachedEntries blkOf tl from rfl,
      ih rest hr]

/-- Draining a queue whose entries are a cached prefix followed by a
non-cached entry validates and removes exactly that prefix. -/
theorem takeAssembled_front (blkOf : EthHash → EthBlock)
    (σc : List EthHash) (rest : List (EthHash × HState)) (limit : Nat)
    (anc p : EthHash) (past : List EthHash)
    (hr : ∀ e ∈ rest.take 1, e.2.isCached = false) :
    (⟨cachedEntries blkOf σc ++ rest, limit, anc, p, past⟩
      : BlockQueue).takeAssembled
      = match validateChain anc p (σc.map blkOf) with
        | Except.error e =>
          (⟨cachedEntries blkOf σc ++ rest, limit, anc, p, past⟩,
           Except.error e)
        | Except.ok p2 =>
          (⟨rest, limit, anc, p2, past ++ σc⟩,
           Except.ok (σc.map blkOf)) := by
  unfold BlockQueue.takeAssembled
  simp only [takeWhile_cachedFront blkOf σc rest hr,
    filterMap_cachedEntries, map_fst_cachedEntries, cachedEntries_length]
  cases hv : validateChain anc p (σc.map blkOf) with
  | error e => rfl
  | ok p2 =>
    simp only []
    have hd : List.drop σc.length (cachedEntries blkOf σc ++ rest)
        = rest := by
      rw [← cachedEntries_length blkOf σc]
      exact List.drop_left _ _
    rw [hd]

/-- The round-iteration split: the TTL sweep, then the iteration body. -/
theorem roundStep_expire (blockFor : EthHash → Option EthBlock)
    (maxBatch ttl maxAtt : Nat) (takeFlag : Bool) (now : Nat)
    (st : RoundState) :
    roundStep blockFor maxBatch ttl maxAtt takeFlag now st
      = roundStepCore blockFor maxBatch maxAtt takeFlag now
          (st.q.expire ttl now).1 st.acc st.attempts := rfl

/-- The TTL sweep leaves a gap-form queue with an unseen gap entry
unchanged (nothing is pending). -/
theorem expire_gap_unseen (blkOf : EthHash → EthBlock)
    (σc σu τc τu : List EthHash) (g : EthHash) (limit : Nat)
    (anc p : EthHash) (past : List EthHash) (ttl now : Nat) :
    ((⟨cachedEntries blkOf σc ++ (unseenEntries σu ++ (g, HState.unseen) ::
        (cachedEntries blkOf τc ++ unseenEntries τu)),
      limit, anc, p, past⟩ : BlockQueue).expire ttl now).1
      = ⟨cachedEntries blkOf σc ++ (unseenEntries σu ++ (g, HState.unseen) ::
          (cachedEntries blkOf τc ++ unseenEntries τu)),
        limit, anc, p, past⟩ := by
  apply expire_no_pend
  intro e he
  rcases List.mem_append.mp he with h1 | h23
  · obtain ⟨x, _, rfl⟩ := List.mem_map.mp h1
    rfl
  · rcases List.mem_append.mp h23 with h2 | h3
    · obtain ⟨x, _, rfl⟩ := List.mem_map.mp h2
      rfl
    · rcases List.mem_cons.mp h3 with h4 | h5
      · subst h4; rfl
      · rcases List.mem_append.mp h5 with h6 | h7
        · obtain ⟨x, _, rfl⟩ := List.mem_map.mp h6
          rfl
        · obtain ⟨x, _, rfl⟩ := List.mem_map.mp h7
          rfl

/-- The TTL sweep on a gap-form queue with a pending gap entry: only the
gap entry can change, reverting to unseen exactly when it has timed out. -/
theorem expire_gap_pending (blkOf : EthHash → EthBlock)
    (σc σu τc τu : List EthHash) (g : EthHash) (t : Nat) (limit : Nat)
    (anc p : EthHash) (past : List EthHash) (ttl now : Nat) :
    ((⟨cachedEntries blkOf σc ++ (unseenEntries σu ++
        (g, HState.pending t) ::
        (cachedEntries blkOf τc ++ unseenEntries τu)),
      limit, anc, p, past⟩ : BlockQueue).expire ttl now).1
      = ⟨cachedEntries blkOf σc ++ (unseenEntries σu ++
          (g, if ttl < now - t then HState.unseen else HState.pending t) ::
          (cachedEntries blkOf τc ++ unseenEntries τu)),
        limit, anc, p, past⟩ := by
  unfold BlockQueue.expire
  simp only []
  have hpre : ∀ e ∈ cachedEntries blkOf σc ++ unseenEntries σu,
      e.2.isPend = false := NF_no_pend blkOf σc σu
  have hrest : ∀ e ∈ cachedEntries blkOf τc ++ unseenEntries τu,
      e.2.isPend = false := NF_no_pend blkOf τc τu
  rw [show cachedEntries blkOf σc ++ (unseenEntries σu ++
        (g, HState.pending t) ::
        (cachedEntries blkOf τc ++ unseenEntries τu))
      = (cachedEntries blkOf σc ++ unseenEntries σu) ++
        ((g, HState.pending t) ::
          (cachedEntries blkOf τc ++ unseenEntries τu)) by
    rw [List.append_assoc]]
  rw [expireAll_skip ttl now _ _ hpre, expireAll_pending,
    expireAll_no_pending ttl now _ hrest]
  by_cases hexp : ttl < now - t
  · rw [if_pos hexp, if_pos hexp]
    simp [List.append_assoc]
  · rw [if_neg hexp, if_neg hexp]
    simp [List.append_assoc]

/-- The request batch of a gap-form queue whose gap entry is unseen:
within capacity and batch bound the marker fills from the unseen front,
crossing the gap hash itself once the front is exhausted. -/
theorem requestBlocks_gap_unseen (blkOf : EthHash → EthBlock)
    (σc σu τc τu : List EthHash) (g : EthHash) (limit : Nat)
    (anc p : EthHash) (past : List EthHash) (now maxBatch n : Nat)
    (hn : n = min maxBatch (limit - (σc.length + τc.length))) :
    (⟨cachedEntries blkOf σc ++ (unseenEntries σu ++ (g, HState.unseen) ::
        (cachedEntries blkOf τc ++ unseenEntries τu)),
      limit, anc, p, past⟩ : BlockQueue).requestBlocks now maxBatch
      = if n ≤ σu.length then
          (⟨cachedEntries blkOf σc ++ (pendingEntries now (σu.take n) ++
              (unseenEntries (σu.drop n) ++ (g, HState.unseen) ::
                (cachedEntries blkOf τc ++ unseenEntries τu))),
            limit, anc, p, past⟩, σu.take n)
        else
          (⟨cachedEntries blkOf σc ++ (pendingEntries now σu ++
              (g, HState.pending now) ::
                (cachedEntries blkOf τc ++
                  (pendingEntries now (τu.take (n - σu.length - 1)) ++
                    unseenEntries (τu.drop (n - σu.length - 1))))),
            limit, anc, p, past⟩,
           σu ++ g :: τu.take (n - σu.length - 1)) := by
  have hcc : (⟨cachedEntries blkOf σc ++ (unseenEntries σu ++
        (g, HState.unseen) ::
        (cachedEntries blkOf τc ++ unseenEntries τu)),
      limit, anc, p, past⟩ : BlockQueue).cacheCount
      = σc.length + τc.length := by
    rw [cacheCount_def]
    simp [List.countP_append, List.countP_cons]
  have hpc : (⟨cachedEntries blkOf σc ++ (unseenEntries σu ++
        (g, HState.unseen) ::
        (cachedEntries blkOf τc ++ unseenEntries τu)),
      limit, anc, p, past⟩ : BlockQueue).pendingCount = 0 := by
    rw [pendingCount_def]
    simp [List.countP_append, List.countP_cons]
  unfold BlockQueue.requestBlocks
  rw [hcc, hpc, Nat.add_zero]
  simp only []
  rw [markPending_skip_cached]
  rw [show (g, HState.unseen) ::
      (cachedEntries blkOf τc ++ unseenEntries τu)
      = unseenEntries [g] ++ (cachedEntries blkOf τc ++ unseenEntries τu)
      from rfl] at hcc hpc ⊢
  rw [show unseenEntries σu ++ (unseenEntries [g] ++
        (cachedEntries blkOf τc ++ unseenEntries τu))
      = unseenEntries σu ++ (unseenEntries [g] ++
        (cachedEntries blkOf τc ++ unseenEntries τu)) from rfl]
  rw [markPending_unseen_front, ← hn]
  by_cases hA : n ≤ σu.length
  · rw [if_pos hA, if_pos hA]
  · rw [if_neg hA, if_neg hA]
    obtain ⟨m, hm⟩ : ∃ m, n - σu.length = m + 1 := ⟨n - σu.length - 1, by omega⟩
    rw [hm]
    rw [show unseenEntries [g] ++
        (cachedEntries blkOf τc ++ unseenEntries τu)
        = (g, HState.unseen) ::
          (cachedEntries blkOf τc ++ unseenEntries τu) from rfl]
    rw [markPending_unseen, markPending_skip_cached,
      markPending_unseen_list]
    simp only [Nat.add_sub_cancel]

/-- The request batch of a gap-form queue whose gap entry is pending and
whose unseen front is empty: the marker skips the gap and fills from the
unseen hashes behind it. -/
theorem requestBlocks_gap_pending (blkOf : EthHash → EthBlock)
    (σc τc τu : List EthHash) (g : EthHash) (t : Nat) (limit : Nat)
    (anc p : EthHash) (past : List EthHash) (now maxBatch n : Nat)
    (hn : n = min maxBatch (limit - (σc.length + τc.length + 1))) :
    (⟨cachedEntries blkOf σc ++ ((g, HState.pending t) ::
        (cachedEntries blkOf τc ++ unseenEntries τu)),
      limit, anc, p, past⟩ : BlockQueue).requestBlocks now maxBatch
      = (⟨cachedEntries blkOf σc ++ ((g, HState.pending t) ::
            (cachedEntries blkOf τc ++
              (pendingEntries now (τu.take n) ++
                unseenEntries (τu.drop n)))),
          limit, anc, p, past⟩, τu.take n) := by
  have hcc : (⟨cachedEntries blkOf σc ++ ((g, HState.pending t) ::
        (cachedEntries blkOf τc ++ unseenEntries τu)),
      limit, anc, p, past⟩ : BlockQueue).cacheCount
      = σc.length + τc.length := by
    rw [cacheCount_def]
    simp [List.countP_append, List.countP_cons]
  have hpc : (⟨cachedEntries blkOf σc ++ ((g, HState.pending t) ::
        (cachedEntries blkOf τc ++ unseenEntries τu)),
      limit, anc, p, past⟩ : BlockQueue).pendingCount = 1 := by
    rw [pendingCount_def]
    simp [List.countP_append, List.countP_cons]
  unfold BlockQueue.requestBlocks
  rw [hcc, hpc]
  simp only []
  rw [markPending_skip_cached, ← hn]
  cases hnn : n with
  | zero =>
    rw [markPending_zero]
    simp [pendingEntries]
  | succ m =>
    rw [markPending_pending, markPending_skip_cached,
      markPending_unseen_list, ← hnn]

/-- The first entry after an unseen front and a non-cached gap entry is
never cached. -/
theorem take1_gap_not_cached (σu : List EthHash) (g : EthHash)
    (gs : HState) (X : List (EthHash × HState))
    (hgs : gs.isCached = false) :
    ∀ e ∈ (unseenEntries σu ++ (g, gs) :: X).take 1,
      e.2.isCached = false := by
  intro e he
  cases σu with
  | nil =>
    simp [unseenEntries] at he
    rw [he]
    exact hgs
  | cons y ys =>
    simp [unseenEntries] at he
    rw [he]
    rfl

/-- A lone non-cached head entry, as a take-one condition. -/
theorem take1_cons_not_cached (g : EthHash) (gs : HState)
    (X : List (EthHash × HState)) (hgs : gs.isCached = false) :
    ∀ e ∈ ((g, gs) :: X).take 1, e.2.isCached = false := by
  intro e he
  simp at he
  rw [he]
  exact hgs

/-- A cached front holds no pending entry (keyed form used by delivery). -/
theorem cachedEntries_no_pend (blkOf : EthHash → EthBlock)
    (l : List EthHash) :
    ∀ e ∈ cachedEntries blkOf l, e.2.isPend = false := by
  intro e he
  obtain ⟨x, _, rfl⟩ := List.mem_map.mp he
  rfl

/-- One post-sweep iteration on a gap-form state whose gap entry is
pending: either the attempt bound fires with the peers-unavailable error,
or the iteration returns a gap-form state (gap still pending) that keeps
the front-validation invariant and either burns one attempt with no
workload change, or makes progress and resets the attempt counter. -/
theorem roundStepCore_gap_pending (blockFor : EthHash → Option EthBlock)
    (blkOf : EthHash → EthBlock) (maxBatch maxAtt : Nat)
    (takeFlag : Bool) (now limit : Nat) (anc g p : EthHash)
    (past : List EthHash) (acc : List EthBlock) (att : Nat) (t : Nat)
    (σc τc τu : List EthHash)
    (hlink : ∃ e, validateChain anc p (σc.map blkOf) = Except.ok e)
    (HBf : ∀ h ∈ τu, blockFor h = some (blkOf h))
    (HBh : ∀ h ∈ τu, (blkOf h).headerHash = h)
    (hgτ : g ∉ τu) :
    roundStepCore blockFor maxBatch maxAtt takeFlag now
      ⟨cachedEntries blkOf σc ++ ((g, HState.pending t) ::
          (cachedEntries blkOf τc ++ unseenEntries τu)),
        limit, anc, p, past⟩ acc att
      = Except.error DLErr.peersUnavailable ∨
    ∃ (σc2 τc2 τu2 : List EthHash) (p2 : EthHash) (past2 : List EthHash)
      (acc2 : List EthBlock) (att2 : Nat),
      roundStepCore blockFor maxBatch maxAtt takeFlag now
        ⟨cachedEntries blkOf σc ++ ((g, HState.pending t) ::
            (cachedEntries blkOf τc ++ unseenEntries τu)),
          limit, anc, p, past⟩ acc att
        = Except.ok ⟨⟨cachedEntries blkOf σc2 ++ ((g, HState.pending t) ::
            (cachedEntries blkOf τc2 ++ unseenEntries τu2)),
          limit, anc, p2, past2⟩, acc2, att2⟩ ∧
      (∃ e, validateChain anc p2 (σc2.map blkOf) = Except.ok e) ∧
      (∀ h ∈ τu2, h ∈ τu) ∧
      ((att2 = att + 1 ∧ att + 1 < maxAtt ∧
          2 * τu2.length + τc2.length + σc2.length
            = 2 * τu.length + τc.length + σc.length) ∨
       (att2 = 0 ∧
          2 * τu2.length + τc2.length + σc2.length
            < 2 * τu.length + τc.length + σc.length)) := by
  obtain ⟨e0, he0⟩ := hlink
  unfold roundStepCore BlockQueue.deliver
  simp only []
  rw [requestBlocks_gap_pending blkOf σc τc τu g t limit anc p past now
    maxBatch (min maxBatch (limit - (σc.length + τc.length + 1))) rfl]
  set n := min maxBatch (limit - (σc.length + τc.length + 1)) with hndef
  simp only []
  have hfm : (τu.take n).filterMap blockFor = (τu.take n).map blkOf :=
    filterMap_eq_map_on blockFor blkOf _
      (fun h hx => HBf h (List.mem_of_mem_take hx))
  rw [hfm]
  rw [show cachedEntries blkOf σc ++ ((g, HState.pending t) ::
        (cachedEntries blkOf τc ++ (pendingEntries now (τu.take n) ++
          unseenEntries (τu.drop n))))
      = (cachedEntries blkOf σc ++ ((g, HState.pending t) ::
          cachedEntries blkOf τc)) ++ (pendingEntries now (τu.take n) ++
          unseenEntries (τu.drop n)) from by
    simp [List.append_assoc]]
  rw [deliverAll_fill_front blkOf now (τu.take n)
    (cachedEntries blkOf σc ++ ((g, HState.pending t) ::
      cachedEntries blkOf τc)) (unseenEntries (τu.drop n))
    (by
      intro e he hp h2 hh2
      rcases List.mem_append.mp he with h1 | h34
      · obtain ⟨x, _, rfl⟩ := List.mem_map.mp h1
        simp at hp
      · rcases List.mem_cons.mp h34 with h4 | h5
        · rw [h4]
          intro hc
          apply hgτ
          rw [show g = h2 from hc]
          exact List.mem_of_mem_take hh2
        · obtain ⟨x, _, rfl⟩ := List.mem_map.mp h5
          simp at hp)
    (fun h2 hx => HBh h2 (List.mem_of_mem_take hx))]
  by_cases hjz : τu.take n = []
  · have hdrop : τu.drop n = τu := by
      have hlen := congrArg List.length hjz
      rw [List.length_take] at hlen
      simp only [List.length_nil] at hlen
      rcases Nat.min_eq_zero_iff.mp hlen with h | h
      · rw [h, List.drop_zero]
      · rw [List.eq_nil_of_length_eq_zero h]
        simp
    rw [hjz, hdrop]
    simp only [List.isEmpty_nil, Bool.or_true, cachedEntries_nil,
      List.nil_append, List.length_nil]
    rw [if_pos trivial]
    rw [show (cachedEntries blkOf σc ++ ((g, HState.pending t) ::
          cachedEntries blkOf τc)) ++ unseenEntries τu
        = cachedEntries blkOf σc ++ ((g, HState.pending t) ::
          (cachedEntries blkOf τc ++ unseenEntries τu)) from by
      simp [List.append_assoc]]
    rw [takeAssembled_front blkOf σc _ limit anc p past
      (take1_cons_not_cached g (HState.pending t) _ rfl)]
    rw [he0]
    simp only []
    by_cases hσc : σc = []
    · subst hσc
      simp only [List.map_nil, List.length_nil]
      rw [if_pos trivial]
      by_cases hov : maxAtt ≤ att + 1
      · rw [if_pos hov]
        exact Or.inl rfl
      · rw [if_neg hov]
        refine Or.inr ⟨[], τc, τu, e0, past ++ [], acc ++ [], att + 1,
          ?_, ⟨e0, by simp [validateChain_nil]⟩, fun h hh => hh,
          Or.inl ⟨rfl, by omega, by simp⟩⟩
        rw [cachedEntries_nil, List.nil_append]
    · have hscl : σc.length ≠ 0 :=
        fun hc => hσc (List.eq_nil_of_length_eq_zero hc)
      rw [if_neg (by
        rw [List.length_map]
        intro hc
        exact hscl (by omega))]
      refine Or.inr ⟨[], τc, τu, e0, past ++ σc, acc ++ σc.map blkOf, 0,
        ?_, ⟨e0, by simp [validateChain_nil]⟩, fun h hh => hh,
        Or.inr ⟨rfl, by
          simp only [List.length_nil]
          omega⟩⟩
      rw [cachedEntries_nil, List.nil_append]
  · have hbne : (τu.take n).isEmpty = false := by
      cases hq : τu.take n with
      | nil => exact absurd hq hjz
      | cons a l => rfl
    have hjlen : (τu.take n).length ≠ 0 :=
      fun hc => hjz (List.eq_nil_of_length_eq_zero hc)
    have hjlen2 := hjlen
    rw [List.length_take] at hjlen2
    rw [hbne, Bool.or_false]
    cases takeFlag with
    | false =>
      simp only [Bool.false_eq_true, if_false]
      rw [if_neg hjlen]
      refine Or.inr ⟨σc, τc ++ τu.take n, τu.drop n, p, past, acc, 0,
        ?_, ⟨e0, he0⟩, fun h hh => List.mem_of_mem_drop hh,
        Or.inr ⟨rfl, by
          simp only [List.length_append, List.length_drop,
            List.length_take]
          omega⟩⟩
      simp [cachedEntries_append, List.append_assoc]
    | true =>
      simp only [if_true]
      rw [show (cachedEntries blkOf σc ++ ((g, HState.pending t) ::
            cachedEntries blkOf τc)) ++ (cachedEntries blkOf (τu.take n)
            ++ unseenEntries (τu.drop n))
          = cachedEntries blkOf σc ++ ((g, HState.pending t) ::
            (cachedEntries blkOf τc ++ (cachedEntries blkOf (τu.take n)
              ++ unseenEntries (τu.drop n)))) from by
        simp [List.append_assoc]]
      rw [takeAssembled_front blkOf σc _ limit anc p past
        (take1_cons_not_cached g (HState.pending t) _ rfl)]
      rw [he0]
      simp only []
      rw [if_neg (by
        rw [List.length_map]
        intro hc
        exact hjlen (by omega))]
      refine Or.inr ⟨[], τc ++ τu.take n, τu.drop n, e0, past ++ σc,
        acc ++ σc.map blkOf, 0, ?_,
        ⟨e0, by simp [validateChain_nil]⟩,
        fun h hh => List.mem_of_mem_drop hh,
        Or.inr ⟨rfl, by
          simp only [List.length_nil, List.length_append,
            List.length_drop, List.length_take]
          omega⟩⟩
      rw [cachedEntries_nil, List.nil_append]
      simp [cachedEntries_append, List.append_assoc]

/-- One post-sweep iteration on a gap-form state whose gap entry is
unseen: either the attempt bound fires with the peers-unavailable error,
or the iteration returns a gap-form state (gap unseen, or pending once
the marker crossed it) that keeps the invariants and either burns one
attempt with no workload change, or makes progress and resets the
attempt counter. -/
theorem roundStepCore_gap_unseen (blockFor : EthHash → Option EthBlock)
    (blkOf : EthHash → EthBlock) (maxBatch maxAtt : Nat)
    (takeFlag : Bool) (now limit : Nat) (anc g p : EthHash)
    (past : List EthHash) (acc : List EthBlock) (att : Nat)
    (σc σu τc τu : List EthHash)
    (hphase : σu = [] ∨ τc = [])
    (hlink : ∃ e, validateChain anc p (σc.map blkOf ++ σu.map blkOf)
      = Except.ok e)
    (HBf : ∀ h ∈ σu ++ τu, blockFor h = some (blkOf h))
    (HBh : ∀ h ∈ σu ++ τu, (blkOf h).headerHash = h)
    (hg : blockFor g = none) (hgσ : g ∉ σu) (hgτ : g ∉ τu) :
    roundStepCore blockFor maxBatch maxAtt takeFlag now
      ⟨cachedEntries blkOf σc ++ (unseenEntries σu ++ (g, HState.unseen) ::
          (cachedEntries blkOf τc ++ unseenEntries τu)),
        limit, anc, p, past⟩ acc att
      = Except.error DLErr.peersUnavailable ∨
    ∃ (σc2 σu2 τc2 τu2 : List EthHash) (gs2 : HState) (p2 : EthHash)
      (past2 : List EthHash) (acc2 : List EthBlock) (att2 : Nat),
      roundStepCore blockFor maxBatch maxAtt takeFlag now
        ⟨cachedEntries blkOf σc ++ (unseenEntries σu ++
            (g, HState.unseen) ::
            (cachedEntries blkOf τc ++ unseenEntries τu)),
          limit, anc, p, past⟩ acc att
        = Except.ok ⟨⟨cachedEntries blkOf σc2 ++ (unseenEntries σu2 ++
            (g, gs2) :: (cachedEntries blkOf τc2 ++ unseenEntries τu2)),
          limit, anc, p2, past2⟩, acc2, att2⟩ ∧
      (gs2 = HState.unseen ∨ gs2 = HState.pending now) ∧
      (σu2 = [] ∨ (gs2 = HState.unseen ∧ τc2 = [])) ∧
      (∃ e, validateChain anc p2 (σc2.map blkOf ++ σu2.map blkOf)
        = Except.ok e) ∧
      (∀ h ∈ σu2, h ∈ σu) ∧ (∀ h ∈ τu2, h ∈ τu) ∧
      ((att2 = att + 1 ∧ att + 1 < maxAtt ∧
          2 * σu2.length + 2 * τu2.length + τc2.length + σc2.length
            = 2 * σu.length + 2 * τu.length + τc.length + σc.length) ∨
       (att2 = 0 ∧
          2 * σu2.length + 2 * τu2.length + τc2.length + σc2.length
            < 2 * σu.length + 2 * τu.length + τc.length + σc.length)) := by
  obtain ⟨e0, he0⟩ := hlink
  unfold roundStepCore BlockQueue.deliver
  simp only []
  rw [requestBlocks_gap_unseen blkOf σc σu τc τu g limit anc p past now
    maxBatch (min maxBatch (limit - (σc.length + τc.length))) rfl]
  set n := min maxBatch (limit - (σc.length + τc.length)) with hndef
  by_cases hA : n ≤ σu.length
  · rw [if_pos hA]
    simp only []
    have hfm : (σu.take n).filterMap blockFor = (σu.take n).map blkOf :=
      filterMap_eq_map_on blockFor blkOf _
        (fun h hx => HBf h (List.mem_append_left _
          (List.mem_of_mem_take hx)))
    rw [hfm]
    rw [deliverAll_fill_front blkOf now (σu.take n)
      (cachedEntries blkOf σc)
      (unseenEntries (σu.drop n) ++ (g, HState.unseen) ::
        (cachedEntries blkOf τc ++ unseenEntries τu))
      (by
        intro e he hp h2 hh2
        obtain ⟨x, _, rfl⟩ := List.mem_map.mp he
        simp at hp)
      (fun h hx => HBh h (List.mem_append_left _
        (List.mem_of_mem_take hx)))]
    have hres : (σu.take n).length = n := by
      rw [List.length_take]
      omega
    by_cases h0 : n = 0
    · rw [h0]
      simp only [List.take_zero, List.drop_zero, cachedEntries_nil,
        List.nil_append, List.length_nil, List.isEmpty_nil, Bool.or_true,
        List.map_nil]
      rw [if_pos trivial]
      rw [takeAssembled_front blkOf σc _ limit anc p past
        (take1_gap_not_cached σu g HState.unseen _ rfl)]
      obtain ⟨p2, hp2, hrest2⟩ := validateChain_split anc p _ _ e0 he0
      rw [hp2]
      simp only []
      by_cases hσc : σc = []
      · subst hσc
        simp only [List.map_nil, List.length_nil]
        rw [if_pos trivial]
        by_cases hov : maxAtt ≤ att + 1
        · rw [if_pos hov]
          exact Or.inl rfl
        · rw [if_neg hov]
          refine Or.inr ⟨[], σu, τc, τu, HState.unseen, p2, past ++ [],
            acc ++ [], att + 1, ?_, Or.inl rfl, ?_,
            ⟨e0, by simpa using hrest2⟩, fun h hh => hh, fun h hh => hh,
            Or.inl ⟨rfl, by omega, by simp⟩⟩
          · rw [cachedEntries_nil, List.nil_append]
          · rcases hphase with h | h
            · exact Or.inl h
            · exact Or.inr ⟨rfl, h⟩
      · have hscl : σc.length ≠ 0 :=
          fun hc => hσc (List.eq_nil_of_length_eq_zero hc)
        rw [if_neg (by
          rw [List.length_map]
          intro hc
          exact hscl (by omega))]
        refine Or.inr ⟨[], σu, τc, τu, HState.unseen, p2, past ++ σc,
          acc ++ σc.map blkOf, 0, ?_, Or.inl rfl, ?_,
          ⟨e0, by simpa using hrest2⟩, fun h hh => hh, fun h hh => hh,
          Or.inr ⟨rfl, by
            simp only [List.length_nil]
            omega⟩⟩
        · rw [cachedEntries_nil, List.nil_append]
        · rcases hphase with h | h
          · exact Or.inl h
          · exact Or.inr ⟨rfl, h⟩
    · have hbne : (σu.take n).isEmpty = false := by
        cases hq : σu.take n with
        | nil =>
          rw [hq] at hres
          simp at hres
          omega
        | cons a l => rfl
      rw [hbne, Bool.or_false]
      cases takeFlag with
      | false =>
        simp only [Bool.false_eq_true, if_false]
        rw [if_neg (by
          rw [hres]
          exact h0)]
        refine Or.inr ⟨σc ++ σu.take n, σu.drop n, τc, τu,
          HState.unseen, p, past, acc, 0, ?_, Or.inl rfl, ?_, ?_,
          fun h hh => List.mem_of_mem_drop hh, fun h hh => hh,
          Or.inr ⟨rfl, by
            simp only [List.length_append, List.length_drop,
              List.length_take]
            omega⟩⟩
        · simp [cachedEntries_append, List.append_assoc]
        · rcases hphase with h | h
          · exact Or.inl (by rw [h, List.drop_nil])
          · exact Or.inr ⟨rfl, h⟩
        · exact ⟨e0, by
            rw [List.map_append, List.append_assoc, ← List.map_append,
              List.take_append_drop]
            exact he0⟩
      | true =>
        simp only [if_true]
        rw [show cachedEntries blkOf σc ++ (cachedEntries blkOf
              (σu.take n) ++ (unseenEntries (σu.drop n) ++
              (g, HState.unseen) :: (cachedEntries blkOf τc ++
                unseenEntries τu)))
            = cachedEntries blkOf (σc ++ σu.take n) ++
              (unseenEntries (σu.drop n) ++ (g, HState.unseen) ::
                (cachedEntries blkOf τc ++ unseenEntries τu)) from by
          simp [cachedEntries_append, List.append_assoc]]
        rw [takeAssembled_front blkOf (σc ++ σu.take n) _ limit anc p
          past (take1_gap_not_cached (σu.drop n) g HState.unseen _ rfl)]
        have he0' : validateChain anc p ((σc ++ σu.take n).map blkOf ++
            (σu.drop n).map blkOf) = Except.ok e0 := by
          rw [List.map_append, List.append_assoc, ← List.map_append,
            List.take_append_drop]
          exact he0
        obtain ⟨p2, hp2, hrest2⟩ := validateChain_split anc p _ _ e0 he0'
        rw [hp2]
        simp only []
        rw [if_neg (by
          rw [hres, List.length_map, List.length_append,
            List.length_take]
          omega)]
        refine Or.inr ⟨[], σu.drop n, τc, τu, HState.unseen, p2,
          past ++ (σc ++ σu.take n), acc ++ (σc ++ σu.take n).map blkOf,
          0, ?_, Or.inl rfl, ?_, ⟨e0, by simpa using hrest2⟩,
          fun h hh => List.mem_of_mem_drop hh, fun h hh => hh,
          Or.inr ⟨rfl, by
            simp only [List.length_nil, List.length_drop]
            omega⟩⟩
        · rw [cachedEntries_nil, List.nil_append]
        · rcases hphase with h | h
          · exact Or.inl (by rw [h, List.drop_nil])
          · exact Or.inr ⟨rfl, h⟩
  · rw [if_neg hA]
    simp only []
    set m := n - σu.length - 1 with hmdef
    have hfm2 : (σu ++ g :: τu.take m).filterMap blockFor
        = σu.map blkOf ++ (τu.take m).map blkOf := by
      rw [List.filterMap_append]
      rw [filterMap_eq_map_on blockFor blkOf σu
        (fun h hx => HBf h (List.mem_append_left _ hx))]
      congr 1
      rw [show List.filterMap blockFor (g :: τu.take m)
          = List.filterMap blockFor (τu.take m) from by
        simp [List.filterMap_cons, hg]]
      exact filterMap_eq_map_on blockFor blkOf _
        (fun h hx => HBf h (List.mem_append_right _
          (List.mem_of_mem_take hx)))
    rw [hfm2]
    rw [deliverAll_append]
    rw [deliverAll_fill_front blkOf now σu (cachedEntries blkOf σc)
      ((g, HState.pending now) :: (cachedEntries blkOf τc ++
        (pendingEntries now (τu.take m) ++ unseenEntries (τu.drop m))))
      (by
        intro e he hp h2 hh2
        obtain ⟨x, _, rfl⟩ := List.mem_map.mp he
        simp at hp)
      (fun h hx => HBh h (List.mem_append_left _ hx))]
    simp only []
    rw [show cachedEntries blkOf σc ++ (cachedEntries blkOf σu ++
          ((g, HState.pending now) :: (cachedEntries blkOf τc ++
            (pendingEntries now (τu.take m) ++
              unseenEntries (τu.drop m)))))
        = (cachedEntries blkOf σc ++ (cachedEntries blkOf σu ++
            ((g, HState.pending now) :: cachedEntries blkOf τc))) ++
          (pendingEntries now (τu.take m) ++
            unseenEntries (τu.drop m)) from by
      simp [List.append_assoc]]
    rw [deliverAll_fill_front blkOf now (τu.take m)
      (cachedEntries blkOf σc ++ (cachedEntries blkOf σu ++
        ((g, HState.pending now) :: cachedEntries blkOf τc)))
      (unseenEntries (τu.drop m))
      (by
        intro e he hp h2 hh2
        rcases List.mem_append.mp he with h1 | h23
        · obtain ⟨x, _, rfl⟩ := List.mem_map.mp h1
          simp at hp
        · rcases List.mem_append.mp h23 with h2m | h3
          · obtain ⟨x, _, rfl⟩ := List.mem_map.mp h2m
            simp at hp
          · rcases List.mem_cons.mp h3 with h4 | h5
            · rw [h4]
              intro hc
              apply hgτ
              rw [show g = h2 from hc]
              exact List.mem_of_mem_take hh2
            · obtain ⟨x, _, rfl⟩ := List.mem_map.mp h5
              simp at hp)
      (fun h hx => HBh h (List.mem_append_right _
        (List.mem_of_mem_take hx)))]
    simp only []
    have hbe : (σu ++ g :: τu.take m).isEmpty = false := by
      cases σu <;> rfl
    rw [hbe, Bool.or_false]
    cases takeFlag with
    | false =>
      simp only [Bool.false_eq_true, if_false]
      by_cases hst : σu.length + (τu.take m).length = 0
      · rw [if_pos hst]
        have hσu0 : σu = [] := List.eq_nil_of_length_eq_zero (by omega)
        have hτm0 : τu.take m = [] :=
          List.eq_nil_of_length_eq_zero (by omega)
        have hdrop : τu.drop m = τu := by
          have hlen := congrArg List.length hτm0
          rw [List.length_take] at hlen
          simp only [List.length_nil] at hlen
          rcases Nat.min_eq_zero_iff.mp hlen with h | h
          · rw [h, List.drop_zero]
          · rw [List.eq_nil_of_length_eq_zero h]
            simp
        by_cases hov : maxAtt ≤ att + 1
        · rw [if_pos hov]
          exact Or.inl rfl
        · rw [if_neg hov]
          refine Or.inr ⟨σc, [], τc, τu, HState.pending now, p, past,
            acc, att + 1, ?_, Or.inr rfl, Or.inl rfl, ?_,
            fun h hh => (List.not_mem_nil h hh).elim, fun h hh => hh,
            Or.inl ⟨rfl, by omega, by rw [hσu0]⟩⟩
          · rw [hσu0, hτm0, hdrop]
            simp [List.append_assoc]
          · exact ⟨e0, by
              rw [hσu0] at he0
              simpa using he0⟩
      · rw [if_neg hst]
        have hst2 := hst
        rw [List.length_take] at hst2
        refine Or.inr ⟨σc ++ σu, [], τc ++ τu.take m, τu.drop m,
          HState.pending now, p, past, acc, 0, ?_, Or.inr rfl,
          Or.inl rfl, ?_, fun h hh => (List.not_mem_nil h hh).elim,
          fun h hh => List.mem_of_mem_drop hh,
          Or.inr ⟨rfl, by
            simp only [List.length_append, List.length_drop,
              List.length_take, List.length_nil]
            omega⟩⟩
        · simp [cachedEntries_append, List.append_assoc]
        · exact ⟨e0, by simpa [List.map_append] using he0⟩
    | true =>
      simp only [if_true]
      rw [show (cachedEntries blkOf σc ++ (cachedEntries blkOf σu ++
            ((g, HState.pending now) :: cachedEntries blkOf τc))) ++
            (cachedEntries blkOf (τu.take m) ++
              unseenEntries (τu.drop m))
          = cachedEntries blkOf (σc ++ σu) ++ ((g, HState.pending now)
            :: (cachedEntries blkOf τc ++ (cachedEntries blkOf
              (τu.take m) ++ unseenEntries (τu.drop m)))) from by
        simp [cachedEntries_append, List.append_assoc]]
      rw [takeAssembled_front blkOf (σc ++ σu) _ limit anc p past
        (take1_cons_not_cached g (HState.pending now) _ rfl)]
      have hfront : validateChain anc p ((σc ++ σu).map blkOf)
          = Except.ok e0 := by
        rw [List.map_append]
        exact he0
      rw [hfront]
      simp only []
      by_cases hst : σu.length + (τu.take m).length +
          ((σc ++ σu).map blkOf).length = 0
      · rw [if_pos hst]
        rw [List.length_map, List.length_append] at hst
        have hσu0 : σu = [] := List.eq_nil_of_length_eq_zero (by omega)
        have hσc0 : σc = [] := List.eq_nil_of_length_eq_zero (by omega)
        have hτm0 : τu.take m = [] :=
          List.eq_nil_of_length_eq_zero (by omega)
        have hdrop : τu.drop m = τu := by
          have hlen := congrArg List.length hτm0
          rw [List.length_take] at hlen
          simp only [List.length_nil] at hlen
          rcases Nat.min_eq_zero_iff.mp hlen with h | h
          · rw [h, List.drop_zero]
          · rw [List.eq_nil_of_length_eq_zero h]
            simp
        by_cases hov : maxAtt ≤ att + 1
        · rw [if_pos hov]
          exact Or.inl rfl
        · rw [if_neg hov]
          refine Or.inr ⟨[], [], τc, τu, HState.pending now, e0,
            past ++ (σc ++ σu), acc ++ (σc ++ σu).map blkOf, att + 1,
            ?_, Or.inr rfl, Or.inl rfl,
            ⟨e0, by simp [validateChain_nil]⟩,
            fun h hh => (List.not_mem_nil h hh).elim, fun h hh => hh,
            Or.inl ⟨rfl, by omega, by rw [hσu0, hσc0]⟩⟩
          rw [hτm0, hdrop]
          simp [List.append_assoc]
      · rw [if_neg hst]
        have hst3 := hst
        rw [List.length_map, List.length_append, List.length_take]
          at hst3
        refine Or.inr ⟨[], [], τc ++ τu.take m, τu.drop m,
          HState.pending now, e0, past ++ (σc ++ σu),
          acc ++ (σc ++ σu).map blkOf, 0, ?_, Or.inr rfl, Or.inl rfl,
          ⟨e0, by simp [validateChain_nil]⟩,
          fun h hh => (List.not_mem_nil h hh).elim,
          fun h hh => List.mem_of_mem_drop hh,
          Or.inr ⟨rfl, by
            simp only [List.length_nil, List.length_append,
              List.length_drop, List.length_take]
            omega⟩⟩
        simp [cachedEntries_append, List.append_assoc]

/-- The round loop on a gap-form state: with the gap hash unsuppliable,
the loop always terminates in the peers-unavailable error, for every
drain schedule, clock, TTL, batch size, cache limit and attempt bound,
given fuel covering the workload times the attempt bound. -/
theorem syncRoundAux_gap (blockFor : EthHash → Option EthBlock)
    (blkOf : EthHash → EthBlock) (maxBatch ttl maxAtt limit : Nat)
    (anc g : EthHash) (hg : blockFor g = none) :
    ∀ (fuel : Nat) (σc σu τc τu : List EthHash) (gs : HState)
      (p : EthHash) (past : List EthHash) (acc : List EthBlock)
      (att : Nat) (sched : List Bool) (now : Nat),
    (gs = HState.unseen ∨ ∃ t, gs = HState.pending t) →
    (σu = [] ∨ (gs = HState.unseen ∧ τc = [])) →
    (∃ e, validateChain anc p (σc.map blkOf ++ σu.map blkOf)
      = Except.ok e) →
    (∀ h ∈ σu ++ τu, blockFor h = some (blkOf h)) →
    (∀ h ∈ σu ++ τu, (blkOf h).headerHash = h) →
    g ∉ σu → g ∉ τu →
    (2 * σu.length + 2 * τu.length + τc.length + σc.length)
        * (maxAtt + 1) + (maxAtt - att) + 1 ≤ fuel →
    syncRoundAux blockFor maxBatch ttl maxAtt fuel sched now
      ⟨⟨cachedEntries blkOf σc ++ (unseenEntries σu ++ (g, gs) ::
          (cachedEntries blkOf τc ++ unseenEntries τu)),
        limit, anc, p, past⟩, acc, att⟩
      = some (Except.error DLErr.peersUnavailable) := by
  intro fuel
  induction fuel with
  | zero =>
    intro σc σu τc τu gs p past acc att sched now _ _ _ _ _ _ _ hfuel
    exact absurd hfuel (by omega)
  | succ f ih =>
    intro σc σu τc τu gs p past acc att sched now hgs hphase hlink HBf
      HBh hgσ hgτ hfuel
    rw [syncRoundAux_succ]
    simp only []
    have hout : ¬ ((⟨cachedEntries blkOf σc ++ (unseenEntries σu ++
        (g, gs) :: (cachedEntries blkOf τc ++ unseenEntries τu)),
        limit, anc, p, past⟩ : BlockQueue).outstanding = 0) := by
      unfold BlockQueue.outstanding
      rw [hashPoolCount_def, pendingCount_def]
      rcases hgs with h | ⟨t, h⟩ <;> subst h <;>
        simp [List.countP_append, List.countP_cons]
    rw [if_neg hout]
    rw [roundStep_expire]
    simp only []
    rcases hgs with hgs | ⟨t, hgs⟩ <;> subst hgs
    · rw [expire_gap_unseen]
      rcases roundStepCore_gap_unseen blockFor blkOf maxBatch maxAtt
          (sched.headD false) now limit anc g p past acc att σc σu τc τu
          (by
            rcases hphase with h | ⟨_, h⟩
            · exact Or.inl h
            · exact Or.inr h)
          hlink HBf HBh hg hgσ hgτ with
        herr | ⟨σc2, σu2, τc2, τu2, gs2, p2, past2, acc2, att2, hok,
          hgs2, hphase2, hlink2, hσsub, hτsub, hmeas⟩
      · rw [herr]
      · rw [hok]
        simp only []
        apply ih σc2 σu2 τc2 τu2 gs2 p2 past2 acc2 att2 sched.tail
          (now + 1)
          (by
            rcases hgs2 with h | h
            · exact Or.inl h
            · exact Or.inr ⟨now, h⟩)
          hphase2 hlink2
          (by
            intro h hm
            rcases List.mem_append.mp hm with h1 | h1
            · exact HBf h (List.mem_append_left _ (hσsub h h1))
            · exact HBf h (List.mem_append_right _ (hτsub h h1)))
          (by
            intro h hm
            rcases List.mem_append.mp hm with h1 | h1
            · exact HBh h (List.mem_append_left _ (hσsub h h1))
            · exact HBh h (List.mem_append_right _ (hτsub h h1)))
          (fun hh => hgσ (hσsub g hh))
          (fun hh => hgτ (hτsub g hh))
        rcases hmeas with ⟨ha2, hlt2, heq2⟩ | ⟨ha2, hlt2⟩
        · subst ha2
          rw [heq2]
          generalize (2 * σu.length + 2 * τu.length + τc.length +
            σc.length) * (maxAtt + 1) = K at hfuel ⊢
          omega
        · subst ha2
          have hmul : (2 * σu2.length + 2 * τu2.length + τc2.length +
              σc2.length) * (maxAtt + 1) + (maxAtt + 1)
              ≤ (2 * σu.length + 2 * τu.length + τc.length + σc.length)
                * (maxAtt + 1) := by
            have h1 : (2 * σu2.length + 2 * τu2.length + τc2.length +
                σc2.length) + 1
                ≤ 2 * σu.length + 2 * τu.length + τc.length +
                  σc.length := hlt2
            calc (2 * σu2.length + 2 * τu2.length + τc2.length +
                σc2.length) * (maxAtt + 1) + (maxAtt + 1)
                = ((2 * σu2.length + 2 * τu2.length + τc2.length +
                    σc2.length) + 1) * (maxAtt + 1) := by ring
              _ ≤ (2 * σu.length + 2 * τu.length + τc.length +
                    σc.length) * (maxAtt + 1) :=
                  Nat.mul_le_mul_right _ h1
          generalize (2 * σu2.length + 2 * τu2.length + τc2.length +
            σc2.length) * (maxAtt + 1) = K1 at hmul ⊢
          generalize (2 * σu.length + 2 * τu.length + τc.length +
            σc.length) * (maxAtt + 1) = K2 at hmul hfuel
          omega
    · have hσu0 : σu = [] := by
        rcases hphase with h | ⟨hco, _⟩
        · exact h
        · exact HState.noConfusion hco
      subst hσu0
      simp only [List.length_nil, Nat.mul_zero, Nat.zero_add] at hfuel
      rw [expire_gap_pending]
      by_cases hexp : ttl < now - t
      · rw [if_pos hexp]
        rcases roundStepCore_gap_unseen blockFor blkOf maxBatch maxAtt
            (sched.headD false) now limit anc g p past acc att σc [] τc
            τu (Or.inl rfl) hlink HBf HBh hg hgσ hgτ with
          herr | ⟨σc2, σu2, τc2, τu2, gs2, p2, past2, acc2, att2, hok,
            hgs2, hphase2, hlink2, hσsub, hτsub, hmeas⟩
        · rw [herr]
        · rw [hok]
          simp only []
          apply ih σc2 σu2 τc2 τu2 gs2 p2 past2 acc2 att2 sched.tail
            (now + 1)
            (by
              rcases hgs2 with h | h
              · exact Or.inl h
              · exact Or.inr ⟨now, h⟩)
            hphase2 hlink2
            (by
              intro h hm
              rcases List.mem_append.mp hm with h1 | h1
              · exact absurd (hσsub h h1) (List.not_mem_nil h)
              · exact HBf h (List.mem_append_right _ (hτsub h h1)))
            (by
              intro h hm
              rcases List.mem_append.mp hm with h1 | h1
              · exact absurd (hσsub h h1) (List.not_mem_nil h)
              · exact HBh h (List.mem_append_right _ (hτsub h h1)))
            (fun hh => (List.not_mem_nil g (hσsub g hh)).elim)
            (fun hh => hgτ (hτsub g hh))
          rcases hmeas with ⟨ha2, hlt2, heq2⟩ | ⟨ha2, hlt2⟩
          · subst ha2
            simp only [List.length_nil, Nat.mul_zero, Nat.zero_add]
              at heq2
            rw [heq2]
            generalize (2 * τu.length + τc.length + σc.length)
              * (maxAtt + 1) = K at hfuel ⊢
            omega
          · subst ha2
            simp only [List.length_nil, Nat.mul_zero, Nat.zero_add]
              at hlt2
            have hmul : (2 * σu2.length + 2 * τu2.length + τc2.length +
                σc2.length) * (maxAtt + 1) + (maxAtt + 1)
                ≤ (2 * τu.length + τc.length + σc.length)
                  * (maxAtt + 1) := by
              have h1 : (2 * σu2.length + 2 * τu2.length + τc2.length +
                  σc2.length) + 1
                  ≤ 2 * τu.length + τc.length + σc.length := hlt2
              calc (2 * σu2.length + 2 * τu2.length + τc2.length +
                  σc2.length) * (maxAtt + 1) + (maxAtt + 1)
                  = ((2 * σu2.length + 2 * τu2.length + τc2.length +
                      σc2.length) + 1) * (maxAtt + 1) := by ring
                _ ≤ (2 * τu.length + τc.length + σc.length)
                      * (maxAtt + 1) := Nat.mul_le_mul_right _ h1
            generalize (2 * σu2.length + 2 * τu2.length + τc2.length +
              σc2.length) * (maxAtt + 1) = K1 at hmul ⊢
            generalize (2 * τu.length + τc.length + σc.length)
              * (maxAtt + 1) = K2 at hmul hfuel
            omega
      · rw [if_neg hexp]
        rw [unseenEntries_nil, List.nil_append]
        have hlink2 : ∃ e, validateChain anc p (σc.map blkOf)
            = Except.ok e := by
          obtain ⟨e0, he0⟩ := hlink
          exact ⟨e0, by simpa using he0⟩
        rcases roundStepCore_gap_pending blockFor blkOf maxBatch maxAtt
            (sched.headD false) now limit anc g p past acc att t σc τc
            τu hlink2
            (fun h hm => HBf h (List.mem_append_right _ hm))
            (fun h hm => HBh h (List.mem_append_right _ hm)) hgτ with
          herr | ⟨σc2, τc2, τu2, p2, past2, acc2, att2, hok, hlink3,
            hτsub, hmeas⟩
        · rw [herr]
        · rw [hok]
          simp only []
          rw [show cachedEntries blkOf σc2 ++ ((g, HState.pending t) ::
              (cachedEntries blkOf τc2 ++ unseenEntries τu2))
              = cachedEntries blkOf σc2 ++ (unseenEntries [] ++
                (g, HState.pending t) :: (cachedEntries blkOf τc2 ++
                  unseenEntries τu2)) from by
            rw [unseenEntries_nil, List.nil_append]]
          apply ih σc2 [] τc2 τu2 (HState.pending t) p2 past2 acc2 att2
            sched.tail (now + 1) (Or.inr ⟨t, rfl⟩) (Or.inl rfl)
            (by
              obtain ⟨e2, he2⟩ := hlink3
              exact ⟨e2, by simpa using he2⟩)
            (by
              intro h hm
              rcases List.mem_append.mp hm with h1 | h1
              · exact absurd h1 (List.not_mem_nil h)
              · exact HBf h (List.mem_append_right _ (hτsub h h1)))
            (by
              intro h hm
              rcases List.mem_append.mp hm with h1 | h1
              · exact absurd h1 (List.not_mem_nil h)
              · exact HBh h (List.mem_append_right _ (hτsub h h1)))
            (List.not_mem_nil g)
            (fun hh => hgτ (hτsub g hh))
          simp only [List.length_nil, Nat.mul_zero, Nat.zero_add]
          rcases hmeas with ⟨ha2, hlt2, heq2⟩ | ⟨ha2, hlt2⟩
          · subst ha2
            rw [heq2]
            generalize (2 * τu.length + τc.length + σc.length)
              * (maxAtt + 1) = K at hfuel ⊢
            omega
          · subst ha2
            have hmul : (2 * τu2.length + τc2.length + σc2.length)
                * (maxAtt + 1) + (maxAtt + 1)
                ≤ (2 * τu.length + τc.length + σc.length)
                  * (maxAtt + 1) := by
              have h1 : (2 * τu2.length + τc2.length + σc2.length) + 1
                  ≤ 2 * τu.length + τc.length + σc.length := hlt2
              calc (2 * τu2.length + τc2.length + σc2.length)
                  * (maxAtt + 1) + (maxAtt + 1)
                  = ((2 * τu2.length + τc2.length + σc2.length) + 1)
                    * (maxAtt + 1) := by ring
                _ ≤ (2 * τu.length + τc.length + σc.length)
                      * (maxAtt + 1) := Nat.mul_le_mul_right _ h1
            generalize (2 * τu2.length + τc2.length + σc2.length)
              * (maxAtt + 1) = K1 at hmul ⊢
            generalize (2 * τu.length + τc.length + σc.length)
              * (maxAtt + 1) = K2 at hmul hfuel
            omega

/-- C6: for every sync round over a valid chain containing a hash `g`
whose block body no peer can supply (the non-existent-block attack), the
round eventually returns the peers-unavailable error - not the
chain-validity error, and not running out of fuel past the TTL/attempt
bounds - for every drain schedule, TTL, cache limit, batch size and
attempt bound; and a subsequent round over the corrected chain (every
body suppliable) succeeds completely.  Modelled from the spec: the
downloader implementation is absent from the source snapshot, so the
round loop is the spec's section 4.2/4.3 state machine; the missing body
leaves the gap hash forever unseen or pending, the drained front always
validates, and the no-progress attempt counter reaches its bound. -/
theorem sync_missing_body_peers_unavailable (anc g : EthHash)
    (pre post : List EthHash) (limit maxBatch ttl maxAtt fuel : Nat)
    (sched sched2 : List Bool)
    (hnd : (pre ++ g :: post).Nodup)
    (hbatch : 1 ≤ maxBatch) (hlim : 1 ≤ limit)
    (hfuel : 2 * (pre ++ g :: post).length * (maxAtt + 1) ≤ fuel) :
    syncBlocks (fun h => if h = g then none
        else chainSupply anc (pre ++ g :: post) h)
      limit maxBatch ttl maxAtt anc (pre ++ g :: post) sched fuel
      = some (Except.error DLErr.peersUnavailable) ∧
    syncBlocks (chainSupply anc (pre ++ g :: post)) limit maxBatch ttl
      maxAtt anc (pre ++ g :: post) sched2 fuel
      = some (Except.ok (chainBlocks anc (pre ++ g :: post))) := by
  have hsplit := List.nodup_append.mp hnd
  have hgpre : g ∉ pre :=
    fun hh => (hsplit.2.2 hh) (List.mem_cons_self g post)
  have hgpost : g ∉ post := (List.nodup_cons.mp hsplit.2.1).1
  have hlen : (pre ++ g :: post).length
      = pre.length + post.length + 1 := by
    rw [List.length_append, List.length_cons]
    omega
  constructor
  · unfold syncBlocks
    rw [startRound_NF limit anc _ hnd]
    rw [show (unseenEntries (pre ++ g :: post)
          : List (EthHash × HState))
        = cachedEntries (chainBlk anc (pre ++ g :: post)) [] ++
          (unseenEntries pre ++ (g, HState.unseen) ::
            (cachedEntries (chainBlk anc (pre ++ g :: post)) [] ++
              unseenEntries post)) from by
      simp [unseenEntries]]
    obtain ⟨q0, hq0⟩ := validateChain_chainBlocks anc (pre ++ g :: post)
      hnd
    rw [List.map_append] at hq0
    obtain ⟨p2, hp2, _⟩ := validateChain_split anc anc _ _ q0 hq0
    apply syncRoundAux_gap (fun h => if h = g then none
        else chainSupply anc (pre ++ g :: post) h)
      (chainBlk anc (pre ++ g :: post)) maxBatch ttl maxAtt limit anc g
      (by simp) fuel [] pre [] post HState.unseen anc [] [] 0 sched 0
      (Or.inl rfl) (Or.inr ⟨rfl, rfl⟩)
      ⟨p2, by simpa using hp2⟩
      (by
        intro h hm
        have hne : h ≠ g := by
          intro hc
          subst hc
          rcases List.mem_append.mp hm with h1 | h1
          · exact hgpre h1
          · exact hgpost h1
        simp only []
        rw [if_neg hne]
        apply chainSupply_total
        rcases List.mem_append.mp hm with h1 | h1
        · exact List.mem_append_left _ h1
        · exact List.mem_append_right _ (List.mem_cons_of_mem _ h1))
      (fun h _ => rfl) hgpre hgpost ?_
    have e1 : (2 * pre.length + 2 * post.length +
          ([] : List EthHash).length + ([] : List EthHash).length)
          * (maxAtt + 1)
        = (2 * pre.length + 2 * post.length) * (maxAtt + 1) := by
      simp
    have e2 : 2 * (pre.length + post.length + 1) * (maxAtt + 1)
        = (2 * pre.length + 2 * post.length) * (maxAtt + 1)
          + 2 * (maxAtt + 1) := by
      ring
    rw [hlen, e2] at hfuel
    rw [e1]
    generalize (2 * pre.length + 2 * post.length) * (maxAtt + 1) = K
      at hfuel ⊢
    omega
  · have hf2 : 2 * (pre ++ g :: post).length ≤ fuel := by
      have h1 : 2 * (pre ++ g :: post).length * 1
          ≤ 2 * (pre ++ g :: post).length * (maxAtt + 1) :=
        Nat.mul_le_mul_left _ (by omega)
      have h2 := h1.trans hfuel
      simpa using h2
    obtain ⟨q0, hq0⟩ := validateChain_chainBlocks anc (pre ++ g :: post)
      hnd
    rw [syncBlocks_run (chainSupply anc (pre ++ g :: post))
      (chainBlk anc (pre ++ g :: post)) limit maxBatch ttl maxAtt anc
      (pre ++ g :: post) sched2 fuel hnd
      (chainSupply_total anc (pre ++ g :: post)) (fun h _ => rfl)
      hbatch hlim hf2]
    rw [show (pre ++ g :: post).map (chainBlk anc (pre ++ g :: post))
        = chainBlocks anc (pre ++ g :: post) from rfl,
      show validateChain anc anc (chainBlocks anc (pre ++ g :: post))
        = Except.ok q0 from hq0]

theorem sync_missing_body_peers_unavailable_witness :
    (([[2], [3], [4]] : List EthHash).Nodup ∧ 1 ≤ 2 ∧ 1 ≤ 1 ∧
      2 * ([[2], [3], [4]] : List EthHash).length * (2 + 1) ≤ 18) ∧
    (syncBlocks (fun h => if h = [3] then none
        else chainSupply [1] [[2], [3], [4]] h)
      1 2 0 2 [1] [[2], [3], [4]] [] 18
      = some (Except.error DLErr.peersUnavailable) ∧
    syncBlocks (chainSupply [1] [[2], [3], [4]]) 1 2 0 2 [1]
      [[2], [3], [4]] [true] 18
      = some (Except.ok (chainBlocks [1] [[2], [3], [4]]))) :=
  ⟨⟨by decide, by decide, by decide, by decide⟩,
   sync_missing_body_peers_unavailable [1] [3] [[2]] [[4]] 1 2 0 2 18
     [] [true] (by decide) (by decide) (by decide) (by decide)⟩
